import Mathlib

/-!
Verification development for the `code-ai-editor` CLI agent.

The Go sources are shallowly embedded as executable Lean definitions:

* `GoPath`, `goCleanComps`, `resolveWorkspacePath` — the sandbox path
  resolution of `infrastructure/file_tools.go` together with the lexical
  semantics of Go's `path/filepath.Clean` / `Join` / `Abs` (Linux).
* file tools (`ReadFile`, `EditFile`, `CreateFile`, `ListFiles`) over an
  explicit association-list file system.
* `executeTool` — `FileToolRepository.ExecuteTool`.
* `innerLoopCount` — the inner ReAct loop of `Agent.Run`
  (`domain/agent.go`), driven by a scripted list of assistant responses.
* `walkPhase` / `embedLoop` / `indexDirectory` — the indexing pipeline of
  `application/indexing_service.go`, with the embedder and vector store as
  explicit oracles and an event trace recording requests.
* `isBinary` / `isKnownTextFile` — the binary-content heuristic.
* `qdrantUpsert` / `fallbackToFileStore` / `fallbackSearch` — the live
  vector tools and their degraded file-store fallback, including a model
  of Go's `sort.Slice` (the pattern-defeating quicksort of the Go runtime).
* `upsertClient` — `QdrantClient.Upsert`.

Machine strings are modelled as Lean `String` / `List Char`; byte contents
as `List Nat`.  Go `float64` relevance scores are integer-valued sums of
occurrence counts and are modelled as `Nat` (exact for these magnitudes).
-/

/-! ### Lexical path model (Go `path/filepath`, Linux separators)

`filepath.Clean` is component based: empty and `.` components are dropped,
`..` pops a previous component, leading `..` survive for relative paths and
are dropped for rooted ones.  We model a path as a rootedness flag plus its
raw `/`-separated components. -/

/-- Sequence prefix test, the model of Go `strings.HasPrefix` (over
`Char` lists) and of the prefix step of `strings.Contains`/`Count`. -/
def listIsPre {α : Type} [BEq α] : List α → List α → Bool
  | [], _ => true
  | _ :: _, [] => false
  | a :: as, b :: bs => a == b && listIsPre as bs

/-- Contiguous-subsequence search, the model of Go `strings.Contains`:
some suffix of the haystack starts with the needle. -/
def seqContains {α : Type} [BEq α] : List α → List α → Bool
  | [], needle => listIsPre needle []
  | a :: t, needle => listIsPre needle (a :: t) || seqContains t needle

def goHasPre (pre s : String) : Bool := listIsPre pre.data s.data

/-- Split a character stream at `/`, as Go's `strings.Split(s, "/")` does
(used by the component view of `filepath` operations). -/
def splitSlashAux (cur : List Char) : List Char → List String
  | [] => [String.mk cur.reverse]
  | c :: rest =>
    if c = '/' then String.mk cur.reverse :: splitSlashAux [] rest
    else splitSlashAux (c :: cur) rest

def splitSlash (s : String) : List String := splitSlashAux [] s.data

/-- A path as Go's `filepath` sees it: rooted flag plus components. -/
structure GoPath where
  rooted : Bool
  comps : List String
deriving Repr, DecidableEq

def parsePath (s : String) : GoPath :=
  ⟨s.data.head? = some '/', splitSlash s⟩

/-- One step of `filepath.Clean`'s component processing. -/
def cleanStep (rooted : Bool) (acc : List String) (c : String) : List String :=
  if c = ".." then
    match acc with
    | [] => if rooted then [] else [".."]
    | a :: rest => if a = ".." then c :: a :: rest else rest
  else c :: acc

/-- The component algorithm of `filepath.Clean`: drop empty and `.`
components, then resolve `..` against the accumulated output. -/
def goCleanComps (rooted : Bool) (cs : List String) : List String :=
  ((cs.filter (fun c => !(c == "" || c == "."))).foldl (cleanStep rooted) []).reverse

def goCleanPath (p : GoPath) : GoPath :=
  ⟨p.rooted, goCleanComps p.rooted p.comps⟩

/-- Render a cleaned component list back to the string `filepath.Clean`
returns: `/`-joined, `/`-prefixed when rooted, `.` for an empty relative
path. -/
def compsChars : List String → List Char
  | [] => []
  | [c] => c.data
  | c :: c' :: rest => c.data ++ '/' :: compsChars (c' :: rest)

def renderClean (p : GoPath) : String :=
  if p.rooted then String.mk ('/' :: compsChars p.comps)
  else if p.comps.isEmpty then "." else String.mk (compsChars p.comps)

/-- `filepath.Join(a, b) = Clean(a + "/" + b)` at the component level. -/
def joinP (a b : GoPath) : GoPath :=
  goCleanPath ⟨a.rooted, a.comps ++ b.comps⟩

/-- `filepath.Abs`: already-rooted paths are cleaned, relative ones are
joined onto the current working directory. -/
def absPath (cwd p : GoPath) : GoPath :=
  if p.rooted then goCleanPath p else joinP cwd p

/-- Model of `resolveWorkspacePath` (file_tools.go): the workspace sandbox
root is `<cwd>/workspace`; the user path is cleaned, rejected when its
cleaned form begins with `..`, joined beneath the root, and finally
checked to have the root as a string prefix.  `os.Getwd` and the
`MkdirAll` of the root are modelled as always succeeding. -/
def resolveWorkspacePath (cwd : GoPath) (relativePath : String) : Except String String :=
  let workspaceDir := joinP cwd ⟨false, ["workspace"]⟩
  let cleaned := goCleanPath (parsePath relativePath)
  if goHasPre ".." (renderClean cleaned) then
    .error ("invalid path: '" ++ relativePath ++ "' attempts to traverse outside the workspace")
  else
    let fullPath := joinP workspaceDir ⟨false, cleaned.comps⟩
    let absWorkspaceDir := absPath cwd workspaceDir
    let absFullPath := absPath cwd fullPath
    if goHasPre (renderClean absWorkspaceDir) (renderClean absFullPath) then
      .ok (renderClean absFullPath)
    else
      .error ("invalid path: '" ++ relativePath ++ "' resolves outside the workspace directory")

/-- A component that survives cleaning untouched: not empty, not `.`, not
`..`. -/
def RegComp (c : String) : Prop := c ≠ "" ∧ c ≠ "." ∧ c ≠ ".."

instance (c : String) : Decidable (RegComp c) := by
  unfold RegComp
  infer_instance

/-- A canonical absolute working directory: rooted, already clean. -/
def CanonAbs (p : GoPath) : Prop := p.rooted = true ∧ ∀ c ∈ p.comps, RegComp c

instance (p : GoPath) : Decidable (CanonAbs p) := by
  unfold CanonAbs
  infer_instance

/-! ### File-system model and the sandboxed file tools

The workspace file system is an association list from resolved absolute
path strings to file contents.  Directories are implicit: the tools below
only ever touch paths accepted by `resolveWorkspacePath`, mirroring
`ReadFile`, `EditFile`, `CreateFile` and `ListFiles` in file_tools.go
(`os.Stat`/`MkdirAll` success is implicit in the flat map). -/

def FS := List (String × String)

def fsGet (fs : FS) (p : String) : Option String :=
  (fs.find? (fun e => e.1 == p)).map (fun e => e.2)

def fsSet (fs : FS) (p v : String) : FS :=
  match fs with
  | [] => [(p, v)]
  | e :: rest => if e.1 == p then (p, v) :: rest else e :: fsSet rest p v

/-- Non-overlapping substring count, the model of Go `strings.Count` for
a non-empty search string: after a match the scan resumes past it, so
`skip` counts positions still covered by the current match (an empty
search string yields `1 + rune count`, as in Go). -/
def countSubAux (sub : List Char) : List Char → Nat → Nat
  | [], _ => 0
  | c :: rest, 0 =>
    if listIsPre sub (c :: rest) then 1 + countSubAux sub rest (sub.length - 1)
    else countSubAux sub rest 0
  | _ :: rest, skip + 1 => countSubAux sub rest skip

def goCount (s sub : String) : Nat :=
  if sub.isEmpty then s.data.length + 1 else countSubAux sub.data s.data 0

/-- Replace the first occurrence of `old` (non-empty), the model of Go
`strings.Replace(s, old, new, 1)`. -/
def replaceFirstAux (old new : List Char) : List Char → List Char
  | [] => []
  | c :: rest =>
    if listIsPre old (c :: rest) then new ++ (c :: rest).drop old.length
    else c :: replaceFirstAux old new rest

def replaceFirst (s old new : String) : String :=
  String.mk (replaceFirstAux old.data new.data s.data)

/-- `ReadFile` (file_tools.go): resolve inside the sandbox, then read. -/
def readFileTool (cwd : GoPath) (fs : FS) (path : String) : Except String String :=
  if path = "" then .error "path is required for read_file"
  else
    match resolveWorkspacePath cwd path with
    | .error e => .error e
    | .ok absP =>
      match fsGet fs absP with
      | none => .error ("file not found at path '" ++ path ++ "' within workspace")
      | some content => .ok content

/-- `ListFiles` (file_tools.go): resolve inside the sandbox, then list the
entries below the resolved directory (the flat-map rendering of
`os.ReadDir`). -/
def listFilesTool (cwd : GoPath) (fs : FS) (path : String) : Except String (List String) :=
  let relativePath := if path = "" then "." else path
  match resolveWorkspacePath cwd relativePath with
  | .error e => .error e
  | .ok absP => .ok ((fs.filter (fun e => goHasPre (absP ++ "/") e.1)).map (fun e => e.1))

def editMultipleMsg (oldStr : String) (count : Nat) (path : String) : String :=
  "string '" ++ oldStr ++ "' found multiple times (" ++ toString count ++ ") in file '"
    ++ path ++ "', expected exactly one"

/-- `EditFile` (file_tools.go): resolve, read, require exactly one match of
`old_str`, and only then write the replacement back. -/
def editFileTool (cwd : GoPath) (fs : FS) (path oldStr newStr : String) :
    FS × Except String String :=
  if path = "" ∨ oldStr = "" then
    (fs, .error "path and old_str are required for edit_file")
  else
    match resolveWorkspacePath cwd path with
    | .error e => (fs, .error e)
    | .ok absP =>
      match fsGet fs absP with
      | none => (fs, .error ("file not found at path '" ++ path ++ "' within workspace"))
      | some content =>
        let count := goCount content oldStr
        if count = 0 then
          (fs, .error ("string '" ++ oldStr ++ "' not found in file '" ++ path ++ "'"))
        else if count > 1 then
          (fs, .error (editMultipleMsg oldStr count path))
        else
          (fsSet fs absP (replaceFirst content oldStr newStr),
           .ok ("Successfully edited file '" ++ path ++ "'"))

/-- `CreateFile` (file_tools.go): resolve, fail if the file exists, then
write (parent directories are implicit in the flat map). -/
def createFileTool (cwd : GoPath) (fs : FS) (path content : String) :
    FS × Except String String :=
  if path = "" then (fs, .error "path is required for create_file")
  else
    match resolveWorkspacePath cwd path with
    | .error e => (fs, .error e)
    | .ok absP =>
      match fsGet fs absP with
      | some _ => (fs, .error ("file already exists at path '" ++ path ++ "'"))
      | none => (fsSet fs absP content, .ok ("Successfully created file '" ++ path ++ "'"))

/-! ### Tool dispatch (`FileToolRepository.ExecuteTool`) -/

/-- A tool definition: name plus executable function over a raw input of
type `ι` (Go `json.RawMessage`); errors are values. -/
structure ToolDef (ι : Type) where
  name : String
  fn : ι → Except String String

/-- `FindToolByName`: first tool with a matching name. -/
def findToolByName {ι : Type} (tools : List (ToolDef ι)) (name : String) : Option (ToolDef ι) :=
  tools.find? (fun t => t.name == name)

/-- `anthropic.NewToolResultBlock(id, content, isError)`. -/
structure ToolResultBlock where
  id : String
  content : String
  isError : Bool
deriving Repr, DecidableEq

/-- `ExecuteTool` (file_tools.go): unknown names and tool errors become
error-flagged result blocks; successes are unflagged. -/
def executeTool {ι : Type} (tools : List (ToolDef ι)) (id name : String) (input : ι) :
    ToolResultBlock :=
  match findToolByName tools name with
  | none => ⟨id, "tool not found", true⟩
  | some toolDef =>
    match toolDef.fn input with
    | .error e => ⟨id, "Error executing tool '" ++ name ++ "': " ++ e, true⟩
    | .ok response => ⟨id, response, false⟩

/-! ### The inner ReAct loop of `Agent.Run` (domain/agent.go)

The AI client is scripted as the list of assistant messages it would
return on successive `RunInference` calls.  Each loop iteration consumes
one message; the loop breaks after the first message without a
`tool_use` content block.  `none` models the loop still demanding a
response after the script is exhausted. -/

inductive ContentBlock where
  | text (s : String)
  | toolUse (id name input : String)
deriving Repr, DecidableEq

structure AssistantMsg where
  content : List ContentBlock
deriving Repr, DecidableEq

def isToolUseBlock : ContentBlock → Bool
  | .toolUse _ _ _ => true
  | .text _ => false

/-- `hasToolCalls` of one loop iteration: any `tool_use` block present. -/
def hasToolCalls (m : AssistantMsg) : Bool := m.content.any isToolUseBlock

/-- Number of iterations the inner loop of `Agent.Run` executes when the
scripted responses are consumed in order; `none` when every scripted
response carries tool calls (the loop would demand another response). -/
def innerLoopCount : List AssistantMsg → Option Nat
  | [] => none
  | m :: rest => if hasToolCalls m then (innerLoopCount rest).map (· + 1) else some 1

/-! ### Indexing pipeline (application/indexing_service.go)

`IndexDirectory` = walk (collect snippets, skipping files whose parse or
read failed) → build embedding texts → process batches of 100: request
embeddings, check the count, assign embedding `j` of the batch starting
at `i` to snippet `i+j`, upsert the batch, continue.  The embedder and
vector store are explicit oracles; the returned trace records every
embedding request and upsert attempt in order. -/

structure Snip where
  id : String
  content : String
  filePath : String
  startLine : Int
  endLine : Int
  symbols : List String
  embedding : Option (List Int)
  metadata : List (String × String)
deriving Repr, DecidableEq

/-- The embedding-ready text of a snippet (path + symbols + content). -/
def buildEmbedText (s : Snip) : String :=
  if s.symbols.isEmpty then "File: " ++ s.filePath ++ "\n" ++ s.content
  else
    "File: " ++ s.filePath ++ "\nSymbols: " ++ String.intercalate ", " s.symbols
      ++ "\n" ++ s.content

inductive IdxEvent where
  | embedReq (texts : List String)
  | upsertReq (snips : List Snip)
deriving Repr, DecidableEq

/-- The walk phase: per-file outcomes in walk order; a file that failed to
parse or read contributes nothing and the walk continues. -/
def walkPhase (files : List (Except String (List Snip))) : List Snip :=
  files.foldl (fun acc r => match r with | .ok s => acc ++ s | .error _ => acc) []

def batchSize : Nat := 100

def embedBatchErrMsg (i endIdx : Nat) (e : String) : String :=
  "error generating embeddings for batch " ++ toString (i + 1) ++ "-" ++ toString endIdx
    ++ ": " ++ e

def mismatchErrMsg (texts embs : Nat) : String :=
  "mismatch between number of batch texts (" ++ toString texts ++ ") and embeddings ("
    ++ toString embs ++ ")"

def upsertBatchErrMsg (i endIdx : Nat) (e : String) : String :=
  "error upserting batch " ++ toString (i + 1) ++ "-" ++ toString endIdx ++ ": " ++ e

/-- The batch loop of `IndexDirectory` from absolute snippet index `i`:
embeddings are requested 100 snippets at a time, count-checked, assigned
positionally, and the batch is upserted before the next request. -/
def embedLoop (embed : List String → Except String (List (List Int)))
    (upsert : List Snip → Except String Unit) :
    List Snip → List String → Nat → List IdxEvent × Except String (List Snip)
  | [], _, _ => ([], .ok [])
  | s :: srest, texts, i =>
    let snips := s :: srest
    let batchTexts := texts.take batchSize
    let endIdx := i + batchTexts.length
    match embed batchTexts with
    | .error e => ([.embedReq batchTexts], .error (embedBatchErrMsg i endIdx e))
    | .ok batchEmbeddings =>
      if batchEmbeddings.length ≠ batchTexts.length then
        ([.embedReq batchTexts],
         .error (mismatchErrMsg batchTexts.length batchEmbeddings.length))
      else
        let assigned := List.zipWith (fun sn e => { sn with embedding := some e })
          (snips.take batchSize) batchEmbeddings
        match upsert assigned with
        | .error e =>
          ([.embedReq batchTexts, .upsertReq assigned],
           .error (upsertBatchErrMsg i endIdx e))
        | .ok _ =>
          let rest := embedLoop embed upsert (snips.drop batchSize) (texts.drop batchSize)
            (i + batchSize)
          (.embedReq batchTexts :: .upsertReq assigned :: rest.1,
           rest.2.map (fun out => assigned ++ out))
termination_by snips _ _ => snips.length
decreasing_by
  simp only [List.length_drop, batchSize, List.length_cons]
  omega

/-- `IndexDirectory`: walk, then (for a non-empty snippet list) run the
batch loop over the embedding texts. -/
def indexDirectory (embed : List String → Except String (List (List Int)))
    (upsert : List Snip → Except String Unit)
    (files : List (Except String (List Snip))) : List IdxEvent × Except String Unit :=
  let allSnippets := walkPhase files
  if allSnippets.isEmpty then ([], .ok ())
  else
    let textsToEmbed := allSnippets.map buildEmbedText
    let r := embedLoop embed upsert allSnippets textsToEmbed 0
    (r.1, r.2.map (fun _ => ()))

/-- Specification-side rendering of the batch trace: per batch, one
embedding request immediately followed by the upsert of that batch. -/
def specBatchTrace : List String → List Snip → List IdxEvent
  | [], _ => []
  | t :: trest, outs =>
    let texts := t :: trest
    .embedReq (texts.take batchSize) :: .upsertReq (outs.take batchSize)
      :: specBatchTrace (texts.drop batchSize) (outs.drop batchSize)
termination_by texts _ => texts.length
decreasing_by
  simp only [List.length_drop, batchSize, List.length_cons]
  omega

/-! ### Binary-content heuristic (indexing_service.go `isBinary`)

Byte contents are lists of byte values.  `strings.ToLower` and the marker
search act on ASCII bytes; non-ASCII bytes never occur inside the
ASCII-only markers, so byte-wise ASCII lowercasing is an exact model of
the marker scan. -/

def asciiLowerByte (b : Nat) : Nat := if 65 ≤ b ∧ b ≤ 90 then b + 32 else b

def strBytes (s : String) : List Nat := s.data.map Char.toNat

def textMarkers : List String :=
  ["<!DOCTYPE", "<html", "<?xml", "\x7b", "[", "//", "/*", "#!", "import ", "package ",
   "using ", "function ", "class ", "def ", "var ", "const ", "let ", "from ", "# ",
   "// ", "/* ", "; ", String.mk [Char.ofNat 39, ' ']]

/-- `isKnownTextFile`: a light textual-marker scan over the lowercased
first 100 bytes. -/
def isKnownTextFile (data : List Nat) : Bool :=
  if data.isEmpty then false
  else
    let dataStartLower := (data.take 100).map asciiLowerByte
    textMarkers.any (fun m => seqContains dataStartLower (strBytes m |>.map asciiLowerByte))

def isControlByte (b : Nat) : Bool :=
  b ≠ 0 && (b < 9 || (b > 13 && b < 32 && b ≠ 27))

def isExtendedByte (b : Nat) : Bool := 128 ≤ b && b ≤ 159

/-- `isBinary` (indexing_service.go): BOM ⇒ text; fewer than 32 sampled
bytes ⇒ text; otherwise count nulls / control bytes / extended-ASCII
control bytes over the first 1000 bytes and compare against the lenient
(marker present) or strict thresholds. -/
def isBinary (data : List Nat) : Bool :=
  let checkSize := min 1000 data.length
  if data.take 3 = [0xEF, 0xBB, 0xBF] then false
  else if checkSize < 32 then false
  else
    let sample := data.take checkSize
    let nullCount := (sample.filter (fun b => b == 0)).length
    let controlCount := (sample.filter isControlByte).length
    let extendedCount := (sample.filter isExtendedByte).length
    if isKnownTextFile data then nullCount > checkSize / 50
    else
      nullCount > checkSize / 1000 || controlCount > checkSize / 100
        || extendedCount > checkSize / 50

/-! ### `QdrantClient.Upsert` (infrastructure/vectorstore/qdrant_client.go)

Snippets without an embedding are skipped; an empty point list issues no
request.  Fresh UUIDs for empty snippet IDs come from a supply indexed by
how many have been generated; `mapToPayload` cannot fail on the typed
fields the client builds, so the payload is kept structurally. -/

structure QPayload where
  content : String
  filePath : String
  startLine : Int
  endLine : Int
  symbols : List String
  extra : List (String × String)
deriving Repr, DecidableEq

structure QPoint where
  id : String
  vector : List Int
  payload : QPayload
deriving Repr, DecidableEq

def payloadOf (s : Snip) : QPayload :=
  ⟨s.content, s.filePath, s.startLine, s.endLine, s.symbols, s.metadata⟩

/-- The point-building loop of `Upsert`: `k` counts generated UUIDs. -/
def pointsOf (fresh : Nat → String) (k : Nat) : List Snip → List QPoint
  | [] => []
  | s :: rest =>
    match s.embedding with
    | none => pointsOf fresh k rest
    | some v =>
      if s.id = "" then ⟨fresh k, v, payloadOf s⟩ :: pointsOf fresh (k + 1) rest
      else ⟨s.id, v, payloadOf s⟩ :: pointsOf fresh k rest

/-- `QdrantClient.Upsert`: the returned trace is the list of issued gRPC
upsert requests (none, or exactly one). -/
def upsertClient (send : List QPoint → Except String Unit) (fresh : Nat → String)
    (snippets : List Snip) : List (List QPoint) × Except String Unit :=
  if snippets.isEmpty then ([], .ok ())
  else
    let points := pointsOf fresh 0 snippets
    if points.isEmpty then ([], .ok ())
    else
      match send points with
      | .error e => ([points], .error ("failed to upsert points to Qdrant: " ++ e))
      | .ok _ => ([points], .ok ())

/-! ### `QdrantUpsert` tool and its file-store fallback (file_tools.go)

The embedding call and the vector-store upsert are oracles; `ts` is the
string produced by `time.Now().Format("20241201_120000")` (an arbitrary
layout, but always the same filename shape), `newUuid` the generated
point ID. -/

def fallbackFileName (ts : String) : String :=
  "vector_store_fallback_" ++ ts ++ ".txt"

def metadataFooter (metadata : List (String × String)) : String :=
  if metadata.isEmpty then ""
  else
    "\n\n--- Metadata ---\n"
      ++ String.join (metadata.map (fun kv => kv.1 ++ ": " ++ kv.2 ++ "\n"))

/-- `fallbackToFileStore`: persist text plus metadata footer through
`CreateFile` under a timestamp-derived name in the sandbox root. -/
def fallbackToFileStore (cwd : GoPath) (fs : FS) (ts textContent : String)
    (metadata : List (String × String)) : FS × Except String String :=
  createFileTool cwd fs (fallbackFileName ts) (textContent ++ metadataFooter metadata)

/-- `QdrantUpsert` (file_tools.go): embedding error, empty embedding list,
zero-dimension embedding, or upsert error all fall back to the file
store; otherwise the tool reports the upserted ID. -/
def qdrantUpsert (cwd : GoPath) (fs : FS)
    (embedOutcome : Except String (List (List Int)))
    (upsertOutcome : Except String Unit)
    (newUuid ts textContent : String) (metadata : List (String × String)) :
    FS × Except String String :=
  if textContent = "" then (fs, .error "text_content is required for qdrant_upsert")
  else
    match embedOutcome with
    | .error _ => fallbackToFileStore cwd fs ts textContent metadata
    | .ok embeddings =>
      match embeddings with
      | [] => fallbackToFileStore cwd fs ts textContent metadata
      | e0 :: _ =>
        if e0.isEmpty then fallbackToFileStore cwd fs ts textContent metadata
        else
          match upsertOutcome with
          | .error _ => fallbackToFileStore cwd fs ts textContent metadata
          | .ok _ => (fs, .ok ("Successfully upserted content with ID: " ++ newUuid))

/-! ### Go `sort.Slice` (runtime pdqsort) over a list model

`fallbackToFileSearch` sorts its results with `sort.Slice`, the
pattern-defeating quicksort of the Go runtime (`sort/zsortfunc.go`),
which is *unstable* for more than 12 elements (the insertion-sort cutoff).
The algorithm is transcribed below over a list of values; index reads and
swaps act on the list, loops carry explicit fuel (every loop of the
original terminates, and the fuel chosen at the top level is never
exhausted). -/

def lget {α : Type} [Inhabited α] (l : List α) (i : Nat) : α := l.getD i default

def lswap {α : Type} [Inhabited α] (l : List α) (i j : Nat) : List α :=
  let x := lget l i
  let y := lget l j
  (l.set i y).set j x

inductive SortedHint where
  | increasing
  | decreasing
  | unknown
deriving Repr, DecidableEq

def hintOfSwaps (swaps : Nat) : SortedHint :=
  if swaps = 0 then .increasing else if swaps = 12 then .decreasing else .unknown

/-- `order2_func`: order two indices by the data they point at, counting
comparison swaps. -/
def order2Go {α : Type} [Inhabited α] (less : α → α → Bool) (l : List α)
    (a b swaps : Nat) : (Nat × Nat) × Nat :=
  if less (lget l b) (lget l a) then ((b, a), swaps + 1) else ((a, b), swaps)

/-- `median_func`: index of the median of three. -/
def medianGo {α : Type} [Inhabited α] (less : α → α → Bool) (l : List α)
    (a b c swaps : Nat) : Nat × Nat :=
  let r1 := order2Go less l a b swaps
  let r2 := order2Go less l r1.1.2 c r1.2
  let r3 := order2Go less l r1.1.1 r2.1.1 r2.2
  (r3.1.2, r3.2)

/-- `medianAdjacent_func`. -/
def medianAdjGo {α : Type} [Inhabited α] (less : α → α → Bool) (l : List α)
    (a swaps : Nat) : Nat × Nat :=
  medianGo less l (a - 1) a (a + 1) swaps

/-- `choosePivot_func`: static pivot below 8 elements, median-of-three up
to 49, Tukey ninther beyond. -/
def choosePivotGo {α : Type} [Inhabited α] (less : α → α → Bool) (l : List α)
    (a b : Nat) : Nat × SortedHint :=
  let length := b - a
  let i := a + length / 4 * 1
  let j := a + length / 4 * 2
  let k := a + length / 4 * 3
  if length ≥ 8 then
    if length ≥ 50 then
      let r1 := medianAdjGo less l i 0
      let r2 := medianAdjGo less l j r1.2
      let r3 := medianAdjGo less l k r2.2
      let rm := medianGo less l r1.1 r2.1 r3.1 r3.2
      (rm.1, hintOfSwaps rm.2)
    else
      let rm := medianGo less l i j k 0
      (rm.1, hintOfSwaps rm.2)
  else (j, hintOfSwaps 0)

/-- `reverseRange_func`. -/
def revRangeGo {α : Type} [Inhabited α] : Nat → List α → Nat → Nat → List α
  | 0, l, _, _ => l
  | fuel + 1, l, i, j => if i < j then revRangeGo fuel (lswap l i j) (i + 1) (j - 1) else l

/-- The functional insertion step for `insertionSort_func`: sink `x` from
the right end of the already-sorted prefix; `racc` is that prefix
reversed. -/
def goInsertAux {α : Type} (less : α → α → Bool) (x : α) : List α → List α
  | [] => [x]
  | y :: r => if less x y then y :: goInsertAux less x r else x :: y :: r

/-- `insertionSort_func` as the standard functional insertion sort (each
element of the input sinks leftwards through the sorted prefix by
adjacent swaps exactly while `less`). -/
def goInsertionSortList {α : Type} (less : α → α → Bool) (l : List α) : List α :=
  (l.foldl (fun racc x => goInsertAux less x racc) []).reverse

/-- `insertionSort_func` applied to the index range `[a, b)`. -/
def insRangeGo {α : Type} (less : α → α → Bool) (l : List α) (a b : Nat) : List α :=
  l.take a ++ goInsertionSortList less ((l.drop a).take (b - a)) ++ l.drop (a + (b - a))

/-- `siftDown_func`. -/
def siftDownGo {α : Type} [Inhabited α] (less : α → α → Bool) :
    Nat → List α → Nat → Nat → Nat → List α
  | 0, l, _, _, _ => l
  | fuel + 1, l, root, hi, first =>
    let child := 2 * root + 1
    if child ≥ hi then l
    else
      let child :=
        if child + 1 < hi ∧ less (lget l (first + child)) (lget l (first + child + 1)) then
          child + 1
        else child
      if ¬ less (lget l (first + root)) (lget l (first + child)) then l
      else siftDownGo less fuel (lswap l (first + root) (first + child)) child hi first

/-- The heap-construction loop of `heapSort_func`; step `k + 1` sifts root
`k`, so the call with `(hi - 1) / 2 + 1` runs roots `(hi-1)/2 … 0`. -/
def heapBuildGo {α : Type} [Inhabited α] (less : α → α → Bool) (hi first : Nat) :
    Nat → List α → List α
  | 0, l => l
  | k + 1, l => heapBuildGo less hi first k (siftDownGo less (hi + 1) l k hi first)

/-- The pop loop of `heapSort_func`; step `k + 1` pops into slot `k`. -/
def heapPopGo {α : Type} [Inhabited α] (less : α → α → Bool) (first : Nat) :
    Nat → List α → List α
  | 0, l => l
  | k + 1, l =>
    heapPopGo less first k (siftDownGo less (k + 1) (lswap l first (first + k)) 0 k first)

/-- `heapSort_func` on `[a, b)`. -/
def heapSortGo {α : Type} [Inhabited α] (less : α → α → Bool) (l : List α) (a b : Nat) :
    List α :=
  let first := a
  let hi := b - a
  heapPopGo less first hi (heapBuildGo less hi first ((hi - 1) / 2 + 1) l)

/-- One 64-bit xorshift step (`sort.xorshift.Next`). -/
def xorshiftNext (r : Nat) : Nat :=
  let r := (r ^^^ ((r <<< 13) % 2 ^ 64)) % 2 ^ 64
  let r := (r ^^^ (r >>> 7)) % 2 ^ 64
  let r := (r ^^^ ((r <<< 17) % 2 ^ 64)) % 2 ^ 64
  r

def goBitsLen (n : Nat) : Nat := if n = 0 then 0 else Nat.log2 n + 1

/-- `breakPatterns_func`: scatter three elements using a xorshift stream
seeded with the range length. -/
def breakPatternsGo {α : Type} [Inhabited α] (l : List α) (a b : Nat) : List α :=
  let length := b - a
  if length ≥ 8 then
    let modulus := 2 ^ goBitsLen length
    let idx := a + length / 4 * 2 - 1
    let r1 := xorshiftNext length
    let o1 := r1 % modulus
    let o1 := if o1 ≥ length then o1 - length else o1
    let l := lswap l (idx - 1) (a + o1)
    let r2 := xorshiftNext r1
    let o2 := r2 % modulus
    let o2 := if o2 ≥ length then o2 - length else o2
    let l := lswap l idx (a + o2)
    let r3 := xorshiftNext r2
    let o3 := r3 % modulus
    let o3 := if o3 ≥ length then o3 - length else o3
    lswap l (idx + 1) (a + o3)
  else l

/-- The forward scan of `partition_func` (`for i <= j && less(i, a)`). -/
def partScanI {α : Type} [Inhabited α] (less : α → α → Bool) (l : List α) (aIdx : Nat) :
    Nat → Nat → Nat → Nat
  | 0, i, _ => i
  | fuel + 1, i, j =>
    if i ≤ j ∧ less (lget l i) (lget l aIdx) then partScanI less l aIdx fuel (i + 1) j
    else i

/-- The backward scan of `partition_func` (`for i <= j && !less(j, a)`). -/
def partScanJ {α : Type} [Inhabited α] (less : α → α → Bool) (l : List α) (aIdx : Nat) :
    Nat → Nat → Nat → Nat
  | 0, _, j => j
  | fuel + 1, i, j =>
    if i ≤ j ∧ ¬ less (lget l j) (lget l aIdx) then partScanJ less l aIdx fuel i (j - 1)
    else j

/-- The swap loop of `partition_func`. -/
def partRepeat {α : Type} [Inhabited α] (less : α → α → Bool) :
    Nat → List α → Nat → Nat → Nat → List α × Nat × Nat
  | 0, l, _, i, j => (l, i, j)
  | fuel + 1, l, aIdx, i, j =>
    let i := partScanI less l aIdx (j + 2) i j
    let j := partScanJ less l aIdx (j + 2) i j
    if i > j then (l, i, j)
    else partRepeat less fuel (lswap l i j) aIdx (i + 1) (j - 1)

/-- `partition_func`: Hoare partition around the pivot value moved to the
front; returns the new data, the pivot's final slot, and whether the
range was already partitioned. -/
def partitionGo {α : Type} [Inhabited α] (less : α → α → Bool) (l : List α)
    (a b pivot : Nat) : List α × Nat × Bool :=
  let l := lswap l a pivot
  let i := a + 1
  let j := b - 1
  let i := partScanI less l a (j + 2) i j
  let j := partScanJ less l a (j + 2) i j
  if i > j then (lswap l j a, j, true)
  else
    let l := lswap l i j
    let r := partRepeat less (b + 2) l a (i + 1) (j - 1)
    (lswap r.1 r.2.2 a, r.2.2, false)

/-- The scans and swap loop of `partitionEqual_func`. -/
def peScanI {α : Type} [Inhabited α] (less : α → α → Bool) (l : List α) (aIdx : Nat) :
    Nat → Nat → Nat → Nat
  | 0, i, _ => i
  | fuel + 1, i, j =>
    if i ≤ j ∧ ¬ less (lget l aIdx) (lget l i) then peScanI less l aIdx fuel (i + 1) j
    else i

def peScanJ {α : Type} [Inhabited α] (less : α → α → Bool) (l : List α) (aIdx : Nat) :
    Nat → Nat → Nat → Nat
  | 0, _, j => j
  | fuel + 1, i, j =>
    if i ≤ j ∧ less (lget l aIdx) (lget l j) then peScanJ less l aIdx fuel i (j - 1)
    else j

def peRepeat {α : Type} [Inhabited α] (less : α → α → Bool) :
    Nat → List α → Nat → Nat → Nat → List α × Nat
  | 0, l, _, i, _ => (l, i)
  | fuel + 1, l, aIdx, i, j =>
    let i := peScanI less l aIdx (j + 2) i j
    let j := peScanJ less l aIdx (j + 2) i j
    if i > j then (l, i)
    else peRepeat less fuel (lswap l i j) aIdx (i + 1) (j - 1)

/-- `partitionEqual_func`: split off the run equal to the pivot. -/
def partitionEqualGo {α : Type} [Inhabited α] (less : α → α → Bool) (l : List α)
    (a b pivot : Nat) : List α × Nat :=
  let l := lswap l a pivot
  peRepeat less (b + 2) l a (a + 1) (b - 1)

/-- The adjacent-desorder scan of `partialInsertionSort_func`. -/
def almostScanGo {α : Type} [Inhabited α] (less : α → α → Bool) (l : List α) :
    Nat → Nat → Nat → Nat
  | 0, i, _ => i
  | fuel + 1, i, b =>
    if i < b ∧ ¬ less (lget l i) (lget l (i - 1)) then almostScanGo less l fuel (i + 1) b
    else i

/-- The left-shift loop of `partialInsertionSort_func`. -/
def shiftLeftGo {α : Type} [Inhabited α] (less : α → α → Bool) :
    Nat → List α → Nat → List α
  | 0, l, _ => l
  | fuel + 1, l, j =>
    if 1 ≤ j ∧ less (lget l j) (lget l (j - 1)) then
      shiftLeftGo less fuel (lswap l j (j - 1)) (j - 1)
    else l

/-- The right-shift loop of `partialInsertionSort_func`. -/
def shiftRightGo {α : Type} [Inhabited α] (less : α → α → Bool) :
    Nat → List α → Nat → Nat → List α
  | 0, l, _, _ => l
  | fuel + 1, l, j, b =>
    if j < b ∧ less (lget l j) (lget l (j - 1)) then
      shiftRightGo less fuel (lswap l j (j - 1)) (j + 1) b
    else l

/-- `partialInsertionSort_func`: up to five adjacent corrections, shifting
only on ranges of at least 50; returns whether the range ended sorted. -/
def almostSortGo {α : Type} [Inhabited α] (less : α → α → Bool) :
    Nat → List α → Nat → Nat → Nat → List α × Bool
  | 0, l, _, _, _ => (l, false)
  | steps + 1, l, a, b, i =>
    let i := almostScanGo less l (b + 1) i b
    if i = b then (l, true)
    else if b - a < 50 then (l, false)
    else
      let l := lswap l i (i - 1)
      let l := if i - a ≥ 2 then shiftLeftGo less (i + 1) l (i - 1) else l
      let l := if b - i ≥ 2 then shiftRightGo less (b + 1) l (i + 1) b else l
      almostSortGo less steps l a b i

/-- `pdqsort_func`: the main loop with loop-carried balance flags; a fresh
recursive call restarts both flags at `true`. -/
def pdqLoop {α : Type} [Inhabited α] (less : α → α → Bool) :
    Nat → List α → Nat → Nat → Nat → Bool → Bool → List α
  | 0, l, _, _, _, _, _ => l
  | fuel + 1, l, a, b, limit, wasBalanced, wasPartitioned =>
    let length := b - a
    if length ≤ 12 then insRangeGo less l a b
    else if limit = 0 then heapSortGo less l a b
    else
      let bp := if ¬ wasBalanced then (breakPatternsGo l a b, limit - 1) else (l, limit)
      let l := bp.1
      let limit := bp.2
      let cp := choosePivotGo less l a b
      let rev :=
        if cp.2 = SortedHint.decreasing then
          (revRangeGo (b + 1) l a (b - 1), (b - 1) - (cp.1 - a), SortedHint.increasing)
        else (l, cp.1, cp.2)
      let l := rev.1
      let pivot := rev.2.1
      let hint := rev.2.2
      let ps :=
        if wasBalanced ∧ wasPartitioned ∧ hint = SortedHint.increasing then
          almostSortGo less 5 l a b (a + 1)
        else (l, false)
      if ps.2 then ps.1
      else
        let l := ps.1
        if 0 < a ∧ ¬ less (lget l (a - 1)) (lget l pivot) then
          let pe := partitionEqualGo less l a b pivot
          pdqLoop less fuel pe.1 pe.2 b limit wasBalanced wasPartitioned
        else
          let pr := partitionGo less l a b pivot
          let l := pr.1
          let mid := pr.2.1
          let wasPartitioned := pr.2.2
          let leftLen := mid - a
          let rightLen := b - mid
          let balanceThreshold := length / 8
          let wasBalanced := min leftLen rightLen ≥ balanceThreshold
          if leftLen < rightLen then
            let l := pdqLoop less fuel l a mid limit true true
            pdqLoop less fuel l (mid + 1) b limit wasBalanced wasPartitioned
          else
            let l := pdqLoop less fuel l (mid + 1) b limit true true
            pdqLoop less fuel l a mid limit wasBalanced wasPartitioned

def pdqFuel (n : Nat) : Nat := 2 * n + 2 * goBitsLen n + 16

/-- `sort.Slice`: pdqsort over the whole slice with depth limit
`bits.Len(n)`. -/
def goSortSlice {α : Type} [Inhabited α] (less : α → α → Bool) (l : List α) : List α :=
  pdqLoop less (pdqFuel l.length) l 0 l.length (goBitsLen l.length) true true

/-! ### `fallbackToFileSearch` (file_tools.go)

Inputs are the previously persisted fallback files in glob (scan) order as
`(base name, content)` pairs; per-file read errors do not occur in the
model.  Scores are integer-valued term-frequency sums (`float64` in Go,
exact here). -/

def asciiLowerChar (c : Char) : Char :=
  if 'A' ≤ c ∧ c ≤ 'Z' then Char.ofNat (c.toNat + 32) else c

/-- ASCII model of `strings.ToLower`. -/
def lowerStr (s : String) : String := String.mk (s.data.map asciiLowerChar)

def goIsSpace (c : Char) : Bool :=
  c = ' ' || c = '\t' || c = '\n' || c = '\r' || c = '\x0b' || c = '\x0c'

/-- `strings.Fields`: whitespace-separated non-empty fields. -/
def fieldsAux (cur : List Char) : List Char → List String
  | [] => if cur.isEmpty then [] else [String.mk cur.reverse]
  | c :: rest =>
    if goIsSpace c then
      if cur.isEmpty then fieldsAux [] rest
      else String.mk cur.reverse :: fieldsAux [] rest
    else fieldsAux (c :: cur) rest

def goFields (s : String) : List String := fieldsAux [] s.data

/-- `strings.Split(s, sep)` for a one-character separator. -/
def splitCharAux (sep : Char) (cur : List Char) : List Char → List String
  | [] => [String.mk cur.reverse]
  | c :: rest =>
    if c = sep then String.mk cur.reverse :: splitCharAux sep [] rest
    else splitCharAux sep (c :: cur) rest

def splitChar (sep : Char) (s : String) : List String := splitCharAux sep [] s.data

structure SRes where
  filename : String
  content : String
  relevance : Nat
  matchedLine : String
deriving Repr, DecidableEq, Inhabited

/-- The per-line term loop: `lineScore += count` for every term with a
positive occurrence count in the lowercased line. -/
def lineScoreCode (terms : List String) (line : String) : Nat :=
  let lineLower := lowerStr line
  terms.foldl (fun acc t =>
    let c := goCount lineLower t
    if c > 0 then acc + c else acc) 0

/-- One line of the per-file loop; the accumulator is
`(score, bestLine, bestLineScore)`. -/
def scanStep (terms : List String) (acc : Nat × String × Nat) (line : String) :
    Nat × String × Nat :=
  let ls := lineScoreCode terms line
  (acc.1 + ls, if ls > acc.2.2 then (line, ls) else (acc.2.1, acc.2.2))

/-- The per-file loop: total score plus the best (first strictly-maximal)
line. -/
def fileScanCode (terms : List String) (content : String) : Nat × String :=
  let lines := splitChar '\n' content
  let r := lines.foldl (scanStep terms) (0, "", 0)
  (r.1, r.2.1)

/-- The result-collection loop: files in scan order, keeping those with a
positive score. -/
def scoredResults (files : List (String × String)) (terms : List String) : List SRes :=
  files.foldl (fun acc f =>
    let r := fileScanCode terms f.2
    if r.1 > 0 then acc ++ [⟨f.1, f.2, r.1, r.2⟩] else acc) []

inductive SearchOutcome where
  | noFiles
  | noMatches
  | results (rs : List SRes)
deriving Repr, DecidableEq

def relLess (x y : SRes) : Bool := decide (y.relevance < x.relevance)

/-- `fallbackToFileSearch`: score every fallback file, keep positive
scores, sort by descending relevance with `sort.Slice`, and truncate to
five results. -/
def fallbackSearch (files : List (String × String)) (query : String) : SearchOutcome :=
  if files.isEmpty then .noFiles
  else
    let queryTerms := goFields (lowerStr query)
    let rs := scoredResults files queryTerms
    let sorted := goSortSlice relLess rs
    let top := if sorted.length > 5 then sorted.take 5 else sorted
    if top.isEmpty then .noMatches else .results top

/-! ## Claim theorems -/

/-- Claim C1: the inner ReAct loop of `Agent.Run` runs one iteration per
consecutive tool-use-bearing assistant response and exits immediately
after the first response without a `tool_use` block — for a script of
`pre.length` tool-bearing responses followed by a tool-free response, it
performs exactly `pre.length + 1` inference iterations, independently of
anything scripted afterwards. -/
theorem agent_inner_loop_iteration_count (pre : List AssistantMsg) (m : AssistantMsg)
    (post : List AssistantMsg)
    (hpre : ∀ x ∈ pre, hasToolCalls x = true) (hm : hasToolCalls m = false) :
    innerLoopCount (pre ++ m :: post) = some (pre.length + 1) := by
  induction pre with
  | nil => simp [innerLoopCount, hm]
  | cons a rest ih =>
    have ha : hasToolCalls a = true := hpre a (by simp)
    have ih' := ih (fun x hx => hpre x (by simp [hx]))
    simp [innerLoopCount, ha, ih']

theorem agent_inner_loop_iteration_count_witness :
    innerLoopCount
      [⟨[ContentBlock.text "look", ContentBlock.toolUse "t1" "read_file" "a.go"]⟩,
       ⟨[ContentBlock.toolUse "t2" "edit_file" "a.go"]⟩,
       ⟨[ContentBlock.text "done"]⟩,
       ⟨[ContentBlock.toolUse "t9" "never_reached" "x"]⟩] = some 3 := by
  have h := agent_inner_loop_iteration_count
    [⟨[ContentBlock.text "look", ContentBlock.toolUse "t1" "read_file" "a.go"]⟩,
     ⟨[ContentBlock.toolUse "t2" "edit_file" "a.go"]⟩]
    ⟨[ContentBlock.text "done"]⟩
    [⟨[ContentBlock.toolUse "t9" "never_reached" "x"]⟩]
    (by decide) (by decide)
  simpa using h

/-- Claim C6: `ExecuteTool` is total and yields an error-flagged result
exactly when the tool name is absent from the catalog or the tool's
function returns an error (wrapped with the tool name); a success is
returned unflagged and carries the tool's output. -/
theorem execute_tool_dispatch {ι : Type} (tools : List (ToolDef ι)) (id name : String)
    (input : ι) :
    (findToolByName tools name = none →
      executeTool tools id name input = ⟨id, "tool not found", true⟩) ∧
    (∀ t e, findToolByName tools name = some t → t.fn input = .error e →
      executeTool tools id name input =
        ⟨id, "Error executing tool '" ++ name ++ "': " ++ e, true⟩) ∧
    (∀ t out, findToolByName tools name = some t → t.fn input = .ok out →
      executeTool tools id name input = ⟨id, out, false⟩) ∧
    ((executeTool tools id name input).isError = false ↔
      ∃ t out, findToolByName tools name = some t ∧ t.fn input = .ok out ∧
        (executeTool tools id name input).content = out) := by
  refine ⟨?_, ?_, ?_, ?_⟩
  · intro h
    simp [executeTool, h]
  · intro t e hf he
    simp [executeTool, hf, he]
  · intro t out hf hok
    simp [executeTool, hf, hok]
  · constructor
    · intro h
      rcases hf : findToolByName tools name with _ | t
      · simp [executeTool, hf] at h
      · rcases hr : t.fn input with e | out
        · simp [executeTool, hf, hr] at h
        · exact ⟨t, out, rfl, hr, by simp [executeTool, hf, hr]⟩
    · rintro ⟨t, out, hf, hok, _⟩
      simp [executeTool, hf, hok]

def witnessToolOk : ToolDef String := ⟨"read_file", fun _ => .ok "content"⟩

def witnessToolErr : ToolDef String := ⟨"read_file", fun _ => .error "boom"⟩

theorem execute_tool_dispatch_witness :
    executeTool [witnessToolOk] "id1" "missing_tool" "x" = ⟨"id1", "tool not found", true⟩ ∧
    executeTool [witnessToolErr] "id2" "read_file" "x" =
      ⟨"id2", "Error executing tool 'read_file': boom", true⟩ ∧
    executeTool [witnessToolOk] "id3" "read_file" "x" = ⟨"id3", "content", false⟩ := by
  refine ⟨?_, ?_, ?_⟩
  · exact (execute_tool_dispatch [witnessToolOk] "id1" "missing_tool" "x").1 rfl
  · exact (execute_tool_dispatch [witnessToolErr] "id2" "read_file" "x").2.1
      witnessToolErr "boom" rfl rfl
  · exact (execute_tool_dispatch [witnessToolOk] "id3" "read_file" "x").2.2.1
      witnessToolOk "content" rfl rfl

theorem listIsPre_self_append {α : Type} [BEq α] [LawfulBEq α] (l t : List α) :
    listIsPre l (l ++ t) = true := by
  induction l with
  | nil => simp [listIsPre]
  | cons a as ih => simp [listIsPre, ih]

theorem seqContains_of_isPre {α : Type} [BEq α] (hay needle : List α)
    (h : listIsPre needle hay = true) : seqContains hay needle = true := by
  cases hay with
  | nil => simpa [seqContains] using h
  | cons a t => simp [seqContains, h]

theorem seqContains_middle {α : Type} [BEq α] [LawfulBEq α] (x m y : List α) :
    seqContains (x ++ m ++ y) m = true := by
  induction x with
  | nil =>
    refine seqContains_of_isPre _ _ ?_
    simpa [List.append_assoc] using listIsPre_self_append m y
  | cons a as ih =>
    have ih' : seqContains (as ++ (m ++ y)) m = true := by
      simpa [List.append_assoc] using ih
    simp [seqContains, ih']

/-- Claim C5: `edit_file` with an `old_str` matching more than once
returns a validation error whose message names the match count, and with
zero matches returns a not-found error; in both cases the file system is
left unmodified. -/
theorem edit_file_bad_match_counts (cwd : GoPath) (fs : FS)
    (path oldStr newStr absP content : String)
    (hpath : path ≠ "") (hold : oldStr ≠ "")
    (hres : resolveWorkspacePath cwd path = .ok absP)
    (hget : fsGet fs absP = some content) :
    (2 ≤ goCount content oldStr →
      editFileTool cwd fs path oldStr newStr =
        (fs, .error (editMultipleMsg oldStr (goCount content oldStr) path))) ∧
    (goCount content oldStr = 0 →
      editFileTool cwd fs path oldStr newStr =
        (fs, .error ("string '" ++ oldStr ++ "' not found in file '" ++ path ++ "'"))) ∧
    (∀ n : Nat, seqContains (editMultipleMsg oldStr n path).data (toString n).data = true) := by
  refine ⟨?_, ?_, ?_⟩
  · intro h2
    have h0 : ¬ goCount content oldStr = 0 := by omega
    have h1 : goCount content oldStr > 1 := by omega
    simp [editFileTool, hpath, hold, hres, hget, h0, h1]
  · intro h0
    simp [editFileTool, hpath, hold, hres, hget, h0]
  · intro n
    have hdata : (editMultipleMsg oldStr n path).data =
        ("string '" ++ oldStr ++ "' found multiple times (").data ++ (toString n).data
          ++ (") in file '" ++ path ++ "', expected exactly one").data := by
      simp [editMultipleMsg, String.data_append, List.append_assoc]
    rw [hdata]
    exact seqContains_middle _ _ _

theorem edit_file_bad_match_counts_witness :
    editFileTool ⟨true, ["home", "user"]⟩ [("/home/user/workspace/a.txt", "hi world hi")]
        "a.txt" "hi" "bye" =
      ([("/home/user/workspace/a.txt", "hi world hi")],
       .error (editMultipleMsg "hi" 2 "a.txt")) := by
  have h := (edit_file_bad_match_counts ⟨true, ["home", "user"]⟩
    [("/home/user/workspace/a.txt", "hi world hi")] "a.txt" "hi" "bye"
    "/home/user/workspace/a.txt" "hi world hi"
    (by decide) (by decide) rfl rfl).1 (by decide)
  rwa [show goCount "hi world hi" "hi" = 2 from by decide] at h

theorem pointsOf_vectors (fresh : Nat → String) (snips : List Snip) :
    ∀ k, (pointsOf fresh k snips).map (fun p => p.vector)
      = snips.filterMap (fun s => s.embedding) := by
  induction snips with
  | nil => intro k; simp [pointsOf]
  | cons s rest ih =>
    intro k
    cases he : s.embedding with
    | none => simp [pointsOf, he, ih]
    | some v =>
      by_cases hid : s.id = ""
      · simp [pointsOf, he, hid, ih]
      · simp [pointsOf, he, hid, ih]

theorem pointsOf_nil_of_all_none (fresh : Nat → String) (snips : List Snip)
    (h : ∀ s ∈ snips, s.embedding = none) : ∀ k, pointsOf fresh k snips = [] := by
  induction snips with
  | nil => intro k; simp [pointsOf]
  | cons s rest ih =>
    intro k
    have hs : s.embedding = none := h s (by simp)
    simp only [pointsOf, hs]
    exact ih (fun x hx => h x (by simp [hx])) k

/-- Claim C10: `QdrantClient.Upsert` silently skips snippets whose
embedding is nil (the stored vectors are exactly the non-nil embeddings,
in order), and an empty snippet list — or one containing no snippet with
an embedding — succeeds without issuing any request to the vector
database. -/
theorem qdrant_upsert_skips_nil_embeddings (send : List QPoint → Except String Unit)
    (fresh : Nat → String) (snips : List Snip) :
    ((pointsOf fresh 0 snips).map (fun p => p.vector)
        = snips.filterMap (fun s => s.embedding)) ∧
    (snips = [] → upsertClient send fresh snips = ([], .ok ())) ∧
    ((∀ s ∈ snips, s.embedding = none) → upsertClient send fresh snips = ([], .ok ())) := by
  refine ⟨pointsOf_vectors fresh snips 0, ?_, ?_⟩
  · intro h
    simp [upsertClient, h]
  · intro h
    cases snips with
    | nil => simp [upsertClient]
    | cons s rest =>
      have hp := pointsOf_nil_of_all_none fresh (s :: rest) h 0
      simp [upsertClient, hp]

theorem qdrant_upsert_skips_nil_embeddings_witness :
    upsertClient (fun _ => .error "unreachable") (fun _ => "uuid-0")
      [{ id := "s1", content := "c", filePath := "f", startLine := 1, endLine := 2,
         symbols := [], embedding := none, metadata := [] }] = ([], .ok ()) := by
  exact (qdrant_upsert_skips_nil_embeddings (fun _ => .error "unreachable")
    (fun _ => "uuid-0")
    [{ id := "s1", content := "c", filePath := "f", startLine := 1, endLine := 2,
       symbols := [], embedding := none, metadata := [] }]).2.2
    (by intro s hs; simp at hs; simp [hs])

theorem embedLoop_nil (embed : List String → Except String (List (List Int)))
    (upsert : List Snip → Except String Unit) (texts : List String) (i : Nat) :
    embedLoop embed upsert [] texts i = ([], .ok []) := by
  simp [embedLoop]

theorem embedLoop_embed_error (embed : List String → Except String (List (List Int)))
    (upsert : List Snip → Except String Unit) (s : Snip) (srest : List Snip)
    (texts : List String) (i : Nat) (e : String)
    (he : embed (texts.take batchSize) = .error e) :
    embedLoop embed upsert (s :: srest) texts i =
      ([.embedReq (texts.take batchSize)],
       .error (embedBatchErrMsg i (i + (texts.take batchSize).length) e)) := by
  rw [embedLoop]
  simp [he]

theorem embedLoop_mismatch (embed : List String → Except String (List (List Int)))
    (upsert : List Snip → Except String Unit) (s : Snip) (srest : List Snip)
    (texts : List String) (i : Nat) (embs : List (List Int))
    (he : embed (texts.take batchSize) = .ok embs)
    (hlen : embs.length ≠ (texts.take batchSize).length) :
    embedLoop embed upsert (s :: srest) texts i =
      ([.embedReq (texts.take batchSize)],
       .error (mismatchErrMsg (texts.take batchSize).length embs.length)) := by
  rw [embedLoop]
  simp [he, hlen]
  intro h
  exact absurd h (by simpa using hlen)

theorem embedLoop_upsert_error (embed : List String → Except String (List (List Int)))
    (upsert : List Snip → Except String Unit) (s : Snip) (srest : List Snip)
    (texts : List String) (i : Nat) (embs : List (List Int)) (e : String)
    (he : embed (texts.take batchSize) = .ok embs)
    (hlen : embs.length = (texts.take batchSize).length)
    (hu : upsert (List.zipWith (fun sn em => { sn with embedding := some em })
      ((s :: srest).take batchSize) embs) = .error e) :
    embedLoop embed upsert (s :: srest) texts i =
      ([.embedReq (texts.take batchSize),
        .upsertReq (List.zipWith (fun sn em => { sn with embedding := some em })
          ((s :: srest).take batchSize) embs)],
       .error (upsertBatchErrMsg i (i + (texts.take batchSize).length) e)) := by
  rw [embedLoop]
  simp [he, hlen, hu]

theorem embedLoop_step (embed : List String → Except String (List (List Int)))
    (upsert : List Snip → Except String Unit) (s : Snip) (srest : List Snip)
    (texts : List String) (i : Nat) (embs : List (List Int))
    (he : embed (texts.take batchSize) = .ok embs)
    (hlen : embs.length = (texts.take batchSize).length)
    (hu : upsert (List.zipWith (fun sn em => { sn with embedding := some em })
      ((s :: srest).take batchSize) embs) = .ok ()) :
    embedLoop embed upsert (s :: srest) texts i =
      (.embedReq (texts.take batchSize)
         :: .upsertReq (List.zipWith (fun sn em => { sn with embedding := some em })
              ((s :: srest).take batchSize) embs)
         :: (embedLoop embed upsert ((s :: srest).drop batchSize) (texts.drop batchSize)
              (i + batchSize)).1,
       (embedLoop embed upsert ((s :: srest).drop batchSize) (texts.drop batchSize)
          (i + batchSize)).2.map
         (fun out => List.zipWith (fun sn em => { sn with embedding := some em })
            ((s :: srest).take batchSize) embs ++ out)) := by
  rw [embedLoop]
  simp [he, hlen, hu]

theorem embedLoop_ok_char (embed : List String → Except String (List (List Int)))
    (upsert : List Snip → Except String Unit) :
    ∀ n snips texts i evs out, snips.length = n →
      texts.length = snips.length →
      embedLoop embed upsert snips texts i = (evs, .ok out) →
      out.length = snips.length ∧
      evs = specBatchTrace texts out ∧
      (∀ m, m < snips.length →
        ∃ embs, embed ((texts.drop (batchSize * (m / batchSize))).take batchSize) = .ok embs ∧
          embs.length = ((texts.drop (batchSize * (m / batchSize))).take batchSize).length ∧
          out[m]? = (snips[m]?).map (fun sn =>
            { sn with embedding := some (embs.getD (m % batchSize) []) })) := by
  intro n
  induction n using Nat.strong_induction_on with
  | _ n IH =>
    intro snips texts i evs out hn hlen hrun
    have hbspos : 0 < batchSize := by norm_num [batchSize]
    cases snips with
    | nil =>
      rw [embedLoop_nil] at hrun
      have hevs : evs = [] := by
        have := congrArg Prod.fst hrun
        simpa using this.symm
      have hout : out = [] := by
        have := congrArg Prod.snd hrun
        simp at this
        simpa using this.symm
      have htexts : texts = [] := by
        simpa using List.length_eq_zero.mp (by simpa using hlen)
      subst hevs hout htexts
      refine ⟨by simp, by simp [specBatchTrace], ?_⟩
      intro m hm
      simp at hm
    | cons s srest =>
      rcases he : embed (texts.take batchSize) with e | embs
      · rw [embedLoop_embed_error embed upsert s srest texts i e he] at hrun
        have := congrArg Prod.snd hrun
        simp at this
      · by_cases hmlen : embs.length = (texts.take batchSize).length
        · rcases hu : upsert (List.zipWith (fun sn em => { sn with embedding := some em })
            ((s :: srest).take batchSize) embs) with e | u
          · rw [embedLoop_upsert_error embed upsert s srest texts i embs e he hmlen hu] at hrun
            have := congrArg Prod.snd hrun
            simp at this
          · cases u
            have h2 : srest.length + 1 = n := by simpa using hn
            have h1 : texts.length = n := by
              have h3 := hlen
              simp only [List.length_cons] at h3
              omega
            rw [embedLoop_step embed upsert s srest texts i embs he hmlen hu] at hrun
            have hevs := congrArg Prod.fst hrun
            have hsnd := congrArg Prod.snd hrun
            simp only at hevs hsnd
            rcases rest2 : (embedLoop embed upsert ((s :: srest).drop batchSize)
                (texts.drop batchSize) (i + batchSize)).2 with e' | out'
            · rw [rest2] at hsnd
              simp [Except.map] at hsnd
            · rw [rest2] at hsnd
              simp only [Except.map] at hsnd
              have hout : out = List.zipWith (fun sn em => { sn with embedding := some em })
                  ((s :: srest).take batchSize) embs ++ out' := by
                cases hsnd
                rfl
              have hlt : ((s :: srest).drop batchSize).length < n := by
                simp only [List.length_drop, List.length_cons]
                omega
              have hlen' : (texts.drop batchSize).length
                  = ((s :: srest).drop batchSize).length := by
                simp only [List.length_drop, List.length_cons]
                omega
              have hrun' : embedLoop embed upsert ((s :: srest).drop batchSize)
                  (texts.drop batchSize) (i + batchSize) =
                  ((embedLoop embed upsert ((s :: srest).drop batchSize)
                    (texts.drop batchSize) (i + batchSize)).1, .ok out') := by
                rw [← rest2]
              obtain ⟨ihlen, ihtrace, ihidx⟩ := IH _ hlt ((s :: srest).drop batchSize)
                (texts.drop batchSize) (i + batchSize) _ out' rfl hlen' hrun'
              have hembslen : embs.length = min batchSize texts.length := by
                rw [hmlen]
                simp
              have halen : (List.zipWith (fun sn em => { sn with embedding := some em })
                  ((s :: srest).take batchSize) embs).length = min batchSize n := by
                simp only [List.length_zipWith, List.length_take, List.length_cons]
                rw [hembslen]
                omega
              have houtlen' : out'.length = n - batchSize := by
                rw [ihlen]
                simp only [List.length_drop, List.length_cons]
                omega
              have htout : out.take batchSize = List.zipWith
                  (fun sn em => { sn with embedding := some em })
                  ((s :: srest).take batchSize) embs := by
                rw [hout, List.take_append_eq_append_take]
                rw [List.take_of_length_le (by rw [halen]; omega)]
                rcases le_or_lt batchSize n with hc | hc
                · have hz : batchSize - (List.zipWith (fun sn em =>
                      { sn with embedding := some em })
                      ((s :: srest).take batchSize) embs).length = 0 := by
                    rw [halen]; omega
                  rw [hz]
                  simp
                · have hz : out' = [] := by
                    have hz0 : out'.length = 0 := by omega
                    exact List.length_eq_zero.mp hz0
                  rw [hz]
                  simp
              have hdout : out.drop batchSize = out' := by
                rw [hout, List.drop_append_eq_append_drop]
                rw [List.drop_of_length_le (by rw [halen]; omega)]
                rcases le_or_lt batchSize n with hc | hc
                · have hz : batchSize - (List.zipWith (fun sn em =>
                      { sn with embedding := some em })
                      ((s :: srest).take batchSize) embs).length = 0 := by
                    rw [halen]; omega
                  rw [hz]
                  simp
                · have hz : out' = [] := by
                    have hz0 : out'.length = 0 := by omega
                    exact List.length_eq_zero.mp hz0
                  rw [hz]
                  simp
              refine ⟨?_, ?_, ?_⟩
              · rw [hout]
                simp only [List.length_append, List.length_cons]
                rw [halen, houtlen']
                omega
              · cases texts with
                | nil => simp at hlen
                | cons t trest =>
                  rw [← hevs, specBatchTrace, htout, hdout, ihtrace]
              · intro m hm
                simp only [List.length_cons] at hm
                by_cases hmb : m < batchSize
                · have hdiv : m / batchSize = 0 := Nat.div_eq_of_lt hmb
                  have hmod : m % batchSize = m := Nat.mod_eq_of_lt hmb
                  refine ⟨embs, ?_, ?_, ?_⟩
                  · rw [hdiv]
                    simpa using he
                  · rw [hdiv]
                    simpa using hmlen
                  · have hmn : m < n := by omega
                    have hma : m < (List.zipWith (fun sn em =>
                        { sn with embedding := some em })
                        ((s :: srest).take batchSize) embs).length := by
                      rw [halen]; omega
                    rw [hout, List.getElem?_append, if_pos hma]
                    rw [List.getElem?_zipWith]
                    have h1 : ((s :: srest).take batchSize)[m]? = (s :: srest)[m]? := by
                      rw [List.getElem?_take]
                      simp [hmb]
                    rw [h1]
                    have hms : m < (s :: srest).length := by simpa using hm
                    rw [List.getElem?_eq_getElem hms]
                    have hme : m < embs.length := by
                      rw [hembslen]
                      omega
                    rw [List.getElem?_eq_getElem hme]
                    rw [hmod]
                    simp [List.getD_eq_getElem?_getD, List.getElem?_eq_getElem hme]
                · push_neg at hmb
                  have hm' : m - batchSize < ((s :: srest).drop batchSize).length := by
                    simp only [List.length_drop, List.length_cons]
                    omega
                  obtain ⟨embs', ih1, ih2, ih3⟩ := ihidx (m - batchSize) hm'
                  have hmeq : m = (m - batchSize) + batchSize := by omega
                  have hdiv : m / batchSize = (m - batchSize) / batchSize + 1 := by
                    conv_lhs => rw [hmeq]
                    exact Nat.add_div_right _ hbspos
                  have hmod : m % batchSize = (m - batchSize) % batchSize := by
                    conv_lhs => rw [hmeq]
                    exact Nat.add_mod_right _ _
                  have hdropeq : texts.drop (batchSize * (m / batchSize))
                      = (texts.drop batchSize).drop
                          (batchSize * ((m - batchSize) / batchSize)) := by
                    rw [List.drop_drop, hdiv]
                    ring_nf
                  refine ⟨embs', ?_, ?_, ?_⟩
                  · rw [hdropeq]
                    exact ih1
                  · rw [hdropeq]
                    exact ih2
                  · have hma : (List.zipWith (fun sn em =>
                        { sn with embedding := some em })
                        ((s :: srest).take batchSize) embs).length ≤ m := by
                      rw [halen]; omega
                    rw [hout, List.getElem?_append_right hma]
                    rw [halen]
                    have hminb : min batchSize n = batchSize := by omega
                    rw [hminb]
                    have hsn : (s :: srest)[m]? = ((s :: srest).drop batchSize)[m - batchSize]? := by
                      rw [List.getElem?_drop]
                      congr 1
                      omega
                    rw [hsn, hmod]
                    exact ih3
        · rw [embedLoop_mismatch embed upsert s srest texts i embs he hmlen] at hrun
          have := congrArg Prod.snd hrun
          simp at this

/-- Claim C3: `IndexDirectory` requests embeddings in consecutive batches
of `batchSize = 100` snippets (last batch smaller); a count mismatch from
the embedder fails the run; embedding `j` of the batch starting at
original index `i` is assigned to the snippet at index `i + j`
(`m = i + j` below, batch `m / 100`, offset `m % 100`); and each batch is
upserted immediately after its embeddings are assigned, before the next
batch is requested (the event trace is exactly
embed-request/upsert/embed-request/… per batch). -/
theorem index_batching (embed : List String → Except String (List (List Int)))
    (upsert : List Snip → Except String Unit) (snips : List Snip) (texts : List String)
    (hlen : texts.length = snips.length) :
    (∀ evs out, embedLoop embed upsert snips texts 0 = (evs, .ok out) →
      out.length = snips.length ∧
      evs = specBatchTrace texts out ∧
      (∀ m, m < snips.length →
        ∃ embs, embed ((texts.drop (batchSize * (m / batchSize))).take batchSize) = .ok embs ∧
          embs.length = ((texts.drop (batchSize * (m / batchSize))).take batchSize).length ∧
          out[m]? = (snips[m]?).map (fun sn =>
            { sn with embedding := some (embs.getD (m % batchSize) []) }))) ∧
    (∀ s srest embs, snips = s :: srest →
      embed (texts.take batchSize) = .ok embs →
      embs.length ≠ (texts.take batchSize).length →
      embedLoop embed upsert snips texts 0 =
        ([.embedReq (texts.take batchSize)],
         .error (mismatchErrMsg (texts.take batchSize).length embs.length))) := by
  constructor
  · intro evs out hrun
    exact embedLoop_ok_char embed upsert snips.length snips texts 0 evs out rfl hlen hrun
  · intro s srest embs hsn he hne
    subst hsn
    exact embedLoop_mismatch embed upsert s srest texts 0 embs he hne

def wEmbed : List String → Except String (List (List Int)) :=
  fun ts => .ok (ts.map (fun _ => [1]))

def wUpsert : List Snip → Except String Unit := fun _ => .ok ()

def wSnip (id : String) : Snip :=
  { id := id, content := "c", filePath := "f", startLine := 1, endLine := 1,
    symbols := [], embedding := none, metadata := [] }

theorem index_batching_witness :
    (embedLoop wEmbed wUpsert [wSnip "a", wSnip "b"]
        ([wSnip "a", wSnip "b"].map buildEmbedText) 0).1 =
      specBatchTrace ([wSnip "a", wSnip "b"].map buildEmbedText)
        [{ wSnip "a" with embedding := some [1] },
         { wSnip "b" with embedding := some [1] }] := by
  have hrun : embedLoop wEmbed wUpsert [wSnip "a", wSnip "b"]
      ([wSnip "a", wSnip "b"].map buildEmbedText) 0 =
      ((embedLoop wEmbed wUpsert [wSnip "a", wSnip "b"]
        ([wSnip "a", wSnip "b"].map buildEmbedText) 0).1,
       .ok [{ wSnip "a" with embedding := some [1] },
            { wSnip "b" with embedding := some [1] }]) := by
    rw [embedLoop_step wEmbed wUpsert (wSnip "a") [wSnip "b"]
      ([wSnip "a", wSnip "b"].map buildEmbedText) 0 [[1], [1]] rfl rfl rfl]
    simp [embedLoop_nil, batchSize, wSnip, Except.map]
  have h := (index_batching wEmbed wUpsert [wSnip "a", wSnip "b"]
    ([wSnip "a", wSnip "b"].map buildEmbedText) (by simp)).1 _ _ hrun
  exact h.2.1

theorem walkPhase_go_skip (xs ys : List (Except String (List Snip))) (e : String) :
    ∀ acc, (xs ++ .error e :: ys).foldl
        (fun acc r => match r with | .ok s => acc ++ s | .error _ => acc) acc
      = (xs ++ ys).foldl
          (fun acc r => match r with | .ok s => acc ++ s | .error _ => acc) acc := by
  induction xs with
  | nil => intro acc; simp
  | cons x xs ih =>
    intro acc
    cases x with
    | ok s =>
      simp only [List.cons_append, List.foldl_cons]
      exact ih _
    | error e' =>
      simp only [List.cons_append, List.foldl_cons]
      exact ih _

/-- Claim C4: a parse or read failure on a single file contributes
nothing and the walk (and the whole run) continues unchanged, whereas an
embedding-generation or upsert failure in a batch makes `IndexDirectory`
return a descriptive error immediately — no further embedding request or
upsert is attempted — and a batch is only processed after the previous
batch's upsert succeeded. -/
theorem index_error_handling (embed : List String → Except String (List (List Int)))
    (upsert : List Snip → Except String Unit) :
    (∀ xs ys e, walkPhase (xs ++ .error e :: ys) = walkPhase (xs ++ ys)) ∧
    (∀ xs ys e, indexDirectory embed upsert (xs ++ .error e :: ys)
      = indexDirectory embed upsert (xs ++ ys)) ∧
    (∀ s srest texts i e, embed (texts.take batchSize) = .error e →
      embedLoop embed upsert (s :: srest) texts i =
        ([.embedReq (texts.take batchSize)],
         .error (embedBatchErrMsg i (i + (texts.take batchSize).length) e))) ∧
    (∀ s srest texts i embs e, embed (texts.take batchSize) = .ok embs →
      embs.length = (texts.take batchSize).length →
      upsert (List.zipWith (fun sn em => { sn with embedding := some em })
        ((s :: srest).take batchSize) embs) = .error e →
      embedLoop embed upsert (s :: srest) texts i =
        ([.embedReq (texts.take batchSize),
          .upsertReq (List.zipWith (fun sn em => { sn with embedding := some em })
            ((s :: srest).take batchSize) embs)],
         .error (upsertBatchErrMsg i (i + (texts.take batchSize).length) e))) ∧
    (∀ s srest texts i embs, embed (texts.take batchSize) = .ok embs →
      embs.length = (texts.take batchSize).length →
      upsert (List.zipWith (fun sn em => { sn with embedding := some em })
        ((s :: srest).take batchSize) embs) = .ok () →
      embedLoop embed upsert (s :: srest) texts i =
        (.embedReq (texts.take batchSize)
           :: .upsertReq (List.zipWith (fun sn em => { sn with embedding := some em })
                ((s :: srest).take batchSize) embs)
           :: (embedLoop embed upsert ((s :: srest).drop batchSize)
                (texts.drop batchSize) (i + batchSize)).1,
         (embedLoop embed upsert ((s :: srest).drop batchSize) (texts.drop batchSize)
            (i + batchSize)).2.map
           (fun out => List.zipWith (fun sn em => { sn with embedding := some em })
              ((s :: srest).take batchSize) embs ++ out))) := by
  refine ⟨?_, ?_, ?_, ?_, ?_⟩
  · intro xs ys e
    exact walkPhase_go_skip xs ys e []
  · intro xs ys e
    unfold indexDirectory
    rw [show walkPhase (xs ++ .error e :: ys) = walkPhase (xs ++ ys) from
      walkPhase_go_skip xs ys e []]
  · intro s srest texts i e he
    exact embedLoop_embed_error embed upsert s srest texts i e he
  · intro s srest texts i embs e he hlen hu
    exact embedLoop_upsert_error embed upsert s srest texts i embs e he hlen hu
  · intro s srest texts i embs he hlen hu
    exact embedLoop_step embed upsert s srest texts i embs he hlen hu

def wEmbedFail : List String → Except String (List (List Int)) :=
  fun _ => .error "connection refused"

theorem index_error_handling_witness :
    walkPhase [.ok [wSnip "a"], .error "parse failure", .ok [wSnip "b"]]
      = walkPhase [.ok [wSnip "a"], .ok [wSnip "b"]] ∧
    embedLoop wEmbedFail wUpsert [wSnip "a"] ([wSnip "a"].map buildEmbedText) 0 =
      ([.embedReq (([wSnip "a"].map buildEmbedText).take batchSize)],
       .error (embedBatchErrMsg 0
         (0 + (([wSnip "a"].map buildEmbedText).take batchSize).length)
         "connection refused")) := by
  constructor
  · exact (index_error_handling wEmbedFail wUpsert).1 [.ok [wSnip "a"]] [.ok [wSnip "b"]]
      "parse failure"
  · exact (index_error_handling wEmbedFail wUpsert).2.2.1 (wSnip "a") []
      ([wSnip "a"].map buildEmbedText) 0 "connection refused" rfl

theorem listIsPre_iff_append {α : Type} [BEq α] [LawfulBEq α] (p d : List α) :
    listIsPre p d = true ↔ ∃ t, d = p ++ t := by
  induction p generalizing d with
  | nil => simp [listIsPre]
  | cons a as ih =>
    cases d with
    | nil =>
      simp [listIsPre]
    | cons b bs =>
      simp only [listIsPre, Bool.and_eq_true, beq_iff_eq, ih, List.cons_append,
        List.cons.injEq]
      constructor
      · rintro ⟨hab, t, ht⟩
        exact ⟨t, hab.symm, ht⟩
      · rintro ⟨t, hab, ht⟩
        exact ⟨hab.symm, t, ht⟩

theorem seqContains_replicate_zero (needle : List Nat) (b : Nat) (t : List Nat)
    (hb : needle = b :: t) (hb0 : b ≠ 0) :
    ∀ k, seqContains (List.replicate k 0) needle = false := by
  intro k
  induction k with
  | zero => simp [seqContains, hb, listIsPre]
  | succ k ih =>
    rw [List.replicate_succ]
    simp only [seqContains, ih, Bool.or_false]
    simp [hb, listIsPre, hb0]

/-- Claim C9 (counterexample): content beginning with `package main\n` is
not always classified text — followed by 19 null bytes it trips the
lenient null-byte threshold and is classified binary. -/
theorem is_binary_package_main_counterexample :
    isBinary (strBytes "package main\n" ++ List.replicate 19 0) = true := by
  decide

theorem filter_zero_replicate (k : Nat) :
    (List.replicate k (0 : Nat)).filter (fun b => b == 0) = List.replicate k 0 := by
  induction k with
  | zero => simp
  | succ k ih => simp [List.replicate_succ, ih]

theorem marker_heads_nonzero :
    ∀ m ∈ textMarkers, ((strBytes m).map asciiLowerByte).head? ≠ some 0 ∧
      (strBytes m).map asciiLowerByte ≠ [] := by
  decide

theorem isKnownTextFile_replicate_zero (n : Nat) :
    isKnownTextFile (List.replicate n 0) = false := by
  cases n with
  | zero => simp [isKnownTextFile]
  | succ k =>
    unfold isKnownTextFile
    have hne : (List.replicate (k + 1) (0 : Nat)).isEmpty = false := by
      simp [List.isEmpty_iff]
    rw [hne]
    simp only [Bool.false_eq_true, if_false]
    rw [List.take_replicate, List.map_replicate]
    have hlz : asciiLowerByte 0 = 0 := by decide
    rw [hlz]
    apply List.any_eq_false.mpr
    intro m hm
    obtain ⟨hh, hne'⟩ := marker_heads_nonzero m hm
    obtain ⟨b, t, hbt⟩ := List.exists_cons_of_ne_nil hne'
    have hb0 : b ≠ 0 := by
      intro h0
      apply hh
      rw [hbt, h0]
      rfl
    simp [seqContains_replicate_zero _ b t hbt hb0]

theorem isBinary_all_zero (n : Nat) (h : 32 ≤ n) :
    isBinary (List.replicate n 0) = true := by
  unfold isBinary
  have h3 : (List.replicate n (0 : Nat)).take 3 = [0, 0, 0] := by
    rw [List.take_replicate]
    have : min 3 n = 3 := by omega
    rw [this]
    rfl
  rw [h3]
  have hbom : ¬ ([0, 0, 0] = [0xEF, 0xBB, 0xBF]) := by decide
  rw [if_neg hbom]
  simp only [List.length_replicate]
  have hcz : ¬ (min 1000 n < 32) := by omega
  rw [if_neg hcz]
  rw [List.take_replicate]
  have hmin : min (min 1000 n) n = min 1000 n := by omega
  rw [hmin]
  rw [isKnownTextFile_replicate_zero]
  simp only [Bool.false_eq_true, if_false]
  rw [filter_zero_replicate]
  simp only [List.length_replicate]
  have hlt : min 1000 n / 1000 < min 1000 n := by
    apply Nat.div_lt_self
    · omega
    · norm_num
  simp [hlt]

theorem isBinary_package_main_nonull (d : List Nat)
    (hpre : listIsPre (strBytes "package main\n") d = true)
    (hz : ∀ b ∈ d.take 1000, b ≠ 0) :
    isBinary d = false := by
  obtain ⟨rest, hd⟩ := (listIsPre_iff_append _ _).mp hpre
  have hP : strBytes "package main\n"
      = [112, 97, 99, 107, 97, 103, 101, 32, 109, 97, 105, 110, 10] := by decide
  subst hd
  rw [hP] at hz ⊢
  unfold isBinary
  have h3 : (([112, 97, 99, 107, 97, 103, 101, 32, 109, 97, 105, 110, 10] : List Nat)
      ++ rest).take 3 = [112, 97, 99] := by simp
  rw [h3, if_neg (by decide)]
  by_cases hcz : min 1000 (([112, 97, 99, 107, 97, 103, 101, 32, 109, 97, 105, 110, 10]
      ++ rest : List Nat)).length < 32
  · rw [if_pos hcz]
  · rw [if_neg hcz]
    have hknown : isKnownTextFile
        ([112, 97, 99, 107, 97, 103, 101, 32, 109, 97, 105, 110, 10] ++ rest) = true := by
      unfold isKnownTextFile
      have hne : (([112, 97, 99, 107, 97, 103, 101, 32, 109, 97, 105, 110, 10] : List Nat)
          ++ rest).isEmpty = false := by simp
      rw [hne]
      simp only [Bool.false_eq_true, if_false]
      have htk : (([112, 97, 99, 107, 97, 103, 101, 32, 109, 97, 105, 110, 10] : List Nat)
          ++ rest).take 100
          = [112, 97, 99, 107, 97, 103, 101, 32, 109, 97, 105, 110, 10]
            ++ rest.take 87 := by
        rw [List.take_append_eq_append_take]
        rw [show (([112, 97, 99, 107, 97, 103, 101, 32, 109, 97, 105, 110, 10] :
          List Nat)).take 100
          = [112, 97, 99, 107, 97, 103, 101, 32, 109, 97, 105, 110, 10] from by decide]
        rw [show 100 - ([112, 97, 99, 107, 97, 103, 101, 32, 109, 97, 105, 110, 10] :
          List Nat).length = 87 from by decide]
      rw [htk]
      apply List.any_eq_true.mpr
      refine ⟨"package ", by decide, ?_⟩
      apply seqContains_of_isPre
      rw [List.map_append]
      rw [show (([112, 97, 99, 107, 97, 103, 101, 32, 109, 97, 105, 110, 10] :
        List Nat)).map asciiLowerByte
        = [112, 97, 99, 107, 97, 103, 101, 32]
          ++ [109, 97, 105, 110, 10] from by decide]
      rw [show (strBytes "package ").map asciiLowerByte
        = [112, 97, 99, 107, 97, 103, 101, 32] from by decide]
      rw [List.append_assoc]
      exact listIsPre_self_append _ _
    rw [hknown]
    simp only [if_true]
    have hflt : (([112, 97, 99, 107, 97, 103, 101, 32, 109, 97, 105, 110, 10] ++ rest :
        List Nat).take (min 1000 ([112, 97, 99, 107, 97, 103, 101, 32, 109, 97, 105,
          110, 10] ++ rest : List Nat).length)).filter (fun b => b == 0) = [] := by
      apply List.filter_eq_nil_iff.mpr
      intro b hb
      have hb' : b ∈ ([112, 97, 99, 107, 97, 103, 101, 32, 109, 97, 105, 110, 10]
          ++ rest : List Nat).take 1000 := by
        have : (([112, 97, 99, 107, 97, 103, 101, 32, 109, 97, 105, 110, 10] ++ rest :
            List Nat).take (min 1000 ([112, 97, 99, 107, 97, 103, 101, 32, 109, 97, 105,
              110, 10] ++ rest : List Nat).length))
            = (([112, 97, 99, 107, 97, 103, 101, 32, 109, 97, 105, 110, 10] ++ rest :
              List Nat).take 1000).take (min 1000 ([112, 97, 99, 107, 97, 103, 101, 32,
                109, 97, 105, 110, 10] ++ rest : List Nat).length) := by
          rw [List.take_take]
          congr 1
          omega
        rw [this] at hb
        exact List.take_subset _ _ hb
      simpa using hz b hb'
    rw [hflt]
    simp

theorem isBinary_bom (rest : List Nat) :
    isBinary (0xEF :: 0xBB :: 0xBF :: rest) = false := by
  unfold isBinary
  rw [if_pos (by simp)]

theorem isBinary_short (d : List Nat) (h : d.length < 32) : isBinary d = false := by
  unfold isBinary
  by_cases h1 : d.take 3 = [0xEF, 0xBB, 0xBF]
  · rw [if_pos h1]
  · rw [if_neg h1]
    have hcz : min 1000 d.length < 32 := by omega
    simp [hcz]

theorem isKnownTextFile_take (d : List Nat) :
    isKnownTextFile (d.take 1000) = isKnownTextFile d := by
  unfold isKnownTextFile
  have he : (d.take 1000).isEmpty = d.isEmpty := by
    cases d with
    | nil => rfl
    | cons a t => simp [List.take_succ_cons]
  rw [he]
  have ht : (d.take 1000).take 100 = d.take 100 := by
    rw [List.take_take, show (100 : Nat) ⊓ 1000 = 100 from by omega]
  rw [ht]

theorem isBinary_take (d : List Nat) : isBinary (d.take 1000) = isBinary d := by
  have h3 : (d.take 1000).take 3 = d.take 3 := by
    rw [List.take_take, show (3 : Nat) ⊓ 1000 = 3 from by omega]
  have hcz : min 1000 (min 1000 d.length) = min 1000 d.length := by omega
  have hs : (d.take 1000).take (min 1000 d.length) = d.take (min 1000 d.length) := by
    rw [List.take_take]
    congr 1
    omega
  simp only [isBinary, isKnownTextFile_take, h3, List.length_take, hcz, hs]

/-- Claim C9 (amended): any content of at least 32 bytes of repeated null
bytes is classified binary; content beginning with `package main\n` whose
first 1000 bytes contain no null byte is classified text; a UTF-8 BOM is
always classified text; content shorter than 32 bytes is classified text;
and classification inspects only the first 1000 bytes, so contents
agreeing there are classified identically. -/
theorem binary_detection_amended :
    (∀ n, 32 ≤ n → isBinary (List.replicate n 0) = true) ∧
    (∀ d, listIsPre (strBytes "package main\n") d = true →
      (∀ b ∈ d.take 1000, b ≠ 0) → isBinary d = false) ∧
    (∀ rest, isBinary (0xEF :: 0xBB :: 0xBF :: rest) = false) ∧
    (∀ d, d.length < 32 → isBinary d = false) ∧
    (∀ d₁ d₂, d₁.take 1000 = d₂.take 1000 → isBinary d₁ = isBinary d₂) := by
  refine ⟨isBinary_all_zero, isBinary_package_main_nonull, isBinary_bom, isBinary_short, ?_⟩
  intro d₁ d₂ h
  rw [← isBinary_take d₁, ← isBinary_take d₂, h]

theorem binary_detection_amended_witness :
    isBinary (List.replicate 32 0) = true ∧
    isBinary (strBytes "package main\nfunc main() {}\nmore go\n") = false ∧
    isBinary (strBytes "short") = false := by
  refine ⟨?_, ?_, ?_⟩
  · exact binary_detection_amended.1 32 (by decide)
  · exact binary_detection_amended.2.1 _ (by decide) (by decide)
  · exact binary_detection_amended.2.2.2.1 _ (by decide)

/-- Invariant of the `filepath.Clean` accumulator: regular components on
top of a run of `..` at the bottom; rooted paths never keep `..`. -/
def CleanAcc (rooted : Bool) (acc : List String) : Prop :=
  ∃ regs dots, acc = regs ++ dots ∧ (∀ c ∈ regs, RegComp c) ∧ (∀ c ∈ dots, c = "..") ∧
    (rooted = true → dots = [])

theorem cleanStep_acc (rooted : Bool) (acc : List String) (c : String)
    (hc : c ≠ "" ∧ c ≠ ".") (h : CleanAcc rooted acc) :
    CleanAcc rooted (cleanStep rooted acc c) := by
  obtain ⟨regs, dots, hacc, hregs, hdots, hroot⟩ := h
  by_cases hdd : c = ".."
  · subst hdd
    cases regs with
    | cons r rs =>
      have hr : RegComp r := hregs r (by simp)
      have hacc2 : acc = r :: (rs ++ dots) := by simp [hacc]
      refine ⟨rs, dots, ?_, fun x hx => hregs x (by simp [hx]), hdots, hroot⟩
      simp [cleanStep, hacc2, hr.2.2]
    | nil =>
      simp only [List.nil_append] at hacc
      cases dots with
      | nil =>
        cases hrt : rooted with
        | true =>
          refine ⟨[], [], ?_, by simp, by simp, fun _ => rfl⟩
          simp [cleanStep, hacc, hrt]
        | false =>
          refine ⟨[], [".."], ?_, by simp, by simp, ?_⟩
          · simp [cleanStep, hacc, hrt]
          · intro hcon
            simp at hcon
      | cons d ds =>
        have hd : d = ".." := hdots d (by simp)
        refine ⟨[], ".." :: d :: ds, ?_, by simp, ?_, ?_⟩
        · simp [cleanStep, hacc, hd]
        · intro x hx
          rcases List.mem_cons.mp hx with hx | hx
          · exact hx
          · exact hdots x hx
        · intro hrt
          have := hroot hrt
          simp at this
  · refine ⟨c :: regs, dots, ?_, ?_, hdots, hroot⟩
    · simp [cleanStep, hdd, hacc]
    · intro x hx
      rcases List.mem_cons.mp hx with hx | hx
      · subst hx
        exact ⟨hc.1, hc.2, hdd⟩
      · exact hregs x hx

theorem foldl_cleanStep_acc (rooted : Bool) :
    ∀ (cs acc : List String), (∀ c ∈ cs, c ≠ "" ∧ c ≠ ".") → CleanAcc rooted acc →
      CleanAcc rooted (cs.foldl (cleanStep rooted) acc) := by
  intro cs
  induction cs with
  | nil => intro acc _ h; simpa using h
  | cons c rest ih =>
    intro acc hcs h
    rw [List.foldl_cons]
    exact ih _ (fun x hx => hcs x (by simp [hx]))
      (cleanStep_acc rooted acc c (hcs c (by simp)) h)

/-- `filepath.Clean` output shape: leading `..` components (none when
rooted) followed by regular components. -/
theorem goCleanComps_structure (rooted : Bool) (cs : List String) :
    ∃ dots regs, goCleanComps rooted cs = dots ++ regs ∧ (∀ c ∈ dots, c = "..") ∧
      (∀ c ∈ regs, RegComp c) ∧ (rooted = true → dots = []) := by
  have h := foldl_cleanStep_acc rooted (cs.filter (fun c => !(c == "" || c == "."))) []
    (by
      intro c hc
      have := List.of_mem_filter hc
      simp at this
      exact this)
    ⟨[], [], rfl, by simp, by simp, fun _ => rfl⟩
  obtain ⟨regs, dots, hacc, hregs, hdots, hroot⟩ := h
  refine ⟨dots.reverse, regs.reverse, ?_, ?_, ?_, ?_⟩
  · rw [goCleanComps, hacc, List.reverse_append]
  · intro c hc
    exact hdots c (by simpa using hc)
  · intro c hc
    exact hregs c (by simpa using hc)
  · intro hrt
    rw [hroot hrt]
    rfl

/-- `filepath.Clean` is the identity on already-clean regular components. -/
theorem goCleanComps_regular (rooted : Bool) (cs : List String)
    (h : ∀ c ∈ cs, RegComp c) : goCleanComps rooted cs = cs := by
  have hfoldl : ∀ (l : List String) acc, (∀ c ∈ l, RegComp c) →
      l.foldl (cleanStep rooted) acc = l.reverse ++ acc := by
    intro l
    induction l with
    | nil => intro acc _; simp
    | cons c rest ih =>
      intro acc hl
      rw [List.foldl_cons]
      have hc : RegComp c := hl c (by simp)
      rw [show cleanStep rooted acc c = c :: acc from by simp [cleanStep, hc.2.2]]
      rw [ih (c :: acc) (fun x hx => hl x (by simp [hx]))]
      simp
  have hfilter : cs.filter (fun c => !(c == "" || c == ".")) = cs := by
    apply List.filter_eq_self.mpr
    intro c hc
    have := h c hc
    simp [this.1, this.2.1]
  rw [goCleanComps, hfilter, hfoldl cs [] h]
  simp

theorem compsChars_append (w extra : List String) (hw : w ≠ []) (he : extra ≠ []) :
    compsChars (w ++ extra) = compsChars w ++ '/' :: compsChars extra := by
  induction w with
  | nil => exact absurd rfl hw
  | cons c rest ih =>
    cases rest with
    | nil =>
      cases extra with
      | nil => exact absurd rfl he
      | cons e es => simp [compsChars]
    | cons c' rest' =>
      rw [List.cons_append]
      rw [show compsChars (c :: (c' :: rest' ++ extra))
        = c.data ++ '/' :: compsChars (c' :: rest' ++ extra) from by
          cases rest' <;> cases extra <;> simp [compsChars]]
      rw [ih (by simp)]
      simp [compsChars]

theorem goHasPre_dotdot (l : List String) :
    goHasPre ".." (renderClean ⟨false, ".." :: l⟩) = true := by
  cases l with
  | nil => decide
  | cons c rest =>
    show listIsPre ("..").data (String.mk (compsChars (".." :: c :: rest))).data = true
    rw [show compsChars (".." :: c :: rest)
      = ("..").data ++ '/' :: compsChars (c :: rest) from rfl]
    exact listIsPre_self_append _ _

theorem render_rooted_isPre (w extra : List String) (hw : w ≠ []) :
    goHasPre (renderClean ⟨true, w⟩) (renderClean ⟨true, w ++ extra⟩) = true := by
  cases extra with
  | nil =>
    rw [List.append_nil]
    show listIsPre (renderClean ⟨true, w⟩).data (renderClean ⟨true, w⟩).data = true
    have := listIsPre_self_append (renderClean ⟨true, w⟩).data ([] : List Char)
    simpa using this
  | cons e es =>
    show listIsPre (String.mk ('/' :: compsChars w)).data
      (String.mk ('/' :: compsChars (w ++ e :: es))).data = true
    rw [compsChars_append w (e :: es) hw (by simp)]
    show listIsPre ('/' :: compsChars w)
      ('/' :: (compsChars w ++ '/' :: compsChars (e :: es))) = true
    have h := listIsPre_self_append ('/' :: compsChars w) ('/' :: compsChars (e :: es))
    simpa using h

theorem regcomp_workspace : RegComp "workspace" := by
  refine ⟨?_, ?_, ?_⟩ <;> decide

theorem joinP_regular (p : GoPath) (extra : List String)
    (hp : ∀ c ∈ p.comps, RegComp c) (he : ∀ c ∈ extra, RegComp c) :
    joinP p ⟨false, extra⟩ = ⟨p.rooted, p.comps ++ extra⟩ := by
  unfold joinP goCleanPath
  simp only
  congr 1
  apply goCleanComps_regular
  intro c hc
  rcases List.mem_append.mp hc with hc | hc
  · exact hp c hc
  · exact he c hc

theorem absPath_rooted_regular (cwd p : GoPath) (hrt : p.rooted = true)
    (hp : ∀ c ∈ p.comps, RegComp c) : absPath cwd p = p := by
  unfold absPath
  rw [hrt]
  simp only [if_true]
  unfold goCleanPath
  rw [goCleanComps_regular _ _ hp]

theorem goHasPre_dotdot_fields (p : GoPath) (l : List String) (h1 : p.rooted = false)
    (h2 : p.comps = ".." :: l) : goHasPre ".." (renderClean p) = true := by
  have hp : p = ⟨false, ".." :: l⟩ := by
    cases p
    simp_all
  rw [hp]
  exact goHasPre_dotdot l

/-- Successful resolution lands inside the `<cwd>/workspace` subtree: the
resolved path is the root extended by regular components (no `..`, `.`
or empty components remain). -/
theorem resolve_ok_shape (cwd : GoPath) (rel : String) (hcanon : CanonAbs cwd)
    (out : String) (h : resolveWorkspacePath cwd rel = .ok out) :
    ∃ extra, (∀ c ∈ extra, RegComp c) ∧
      out = renderClean ⟨true, cwd.comps ++ "workspace" :: extra⟩ := by
  obtain ⟨hrt, hcomps⟩ := hcanon
  simp only [resolveWorkspacePath] at h
  by_cases hdd : goHasPre ".." (renderClean (goCleanPath (parsePath rel))) = true
  · rw [if_pos hdd] at h
    cases h
  · rw [if_neg hdd] at h
    obtain ⟨dots, regs, hsplit, hdots, hregs, hrootdots⟩ :=
      goCleanComps_structure (parsePath rel).rooted (parsePath rel).comps
    have hcc : (goCleanPath (parsePath rel)).comps = dots ++ regs := hsplit
    have hdotsnil : dots = [] := by
      cases hp : (parsePath rel).rooted with
      | true => exact hrootdots hp
      | false =>
        cases hdnil : dots with
        | nil => rfl
        | cons d ds =>
          exfalso
          apply hdd
          have hd : d = ".." := hdots d (by simp [hdnil])
          refine goHasPre_dotdot_fields _ (ds ++ regs) hp ?_
          rw [hcc, hdnil, hd]
          simp
    have hregsonly : (goCleanPath (parsePath rel)).comps = regs := by
      rw [hcc, hdotsnil]
      simp
    have hwreg : ∀ c ∈ (["workspace"] : List String), RegComp c := by
      intro c hc
      simp at hc
      subst hc
      exact regcomp_workspace
    have hws : joinP cwd ⟨false, ["workspace"]⟩ = ⟨cwd.rooted, cwd.comps ++ ["workspace"]⟩ :=
      joinP_regular cwd _ hcomps hwreg
    have hwscomps : ∀ c ∈ cwd.comps ++ ["workspace"], RegComp c := by
      intro c hc
      rcases List.mem_append.mp hc with hc | hc
      · exact hcomps c hc
      · exact hwreg c hc
    have hfull : joinP ⟨cwd.rooted, cwd.comps ++ ["workspace"]⟩
        ⟨false, (goCleanPath (parsePath rel)).comps⟩
        = ⟨cwd.rooted, (cwd.comps ++ ["workspace"]) ++ regs⟩ := by
      rw [hregsonly]
      exact joinP_regular ⟨cwd.rooted, cwd.comps ++ ["workspace"]⟩ regs hwscomps hregs
    rw [hws, hfull] at h
    have hfullcomps : ∀ c ∈ (cwd.comps ++ ["workspace"]) ++ regs, RegComp c := by
      intro c hc
      rcases List.mem_append.mp hc with hc | hc
      · exact hwscomps c hc
      · exact hregs c hc
    rw [absPath_rooted_regular cwd ⟨cwd.rooted, cwd.comps ++ ["workspace"]⟩ hrt hwscomps] at h
    rw [absPath_rooted_regular cwd ⟨cwd.rooted, (cwd.comps ++ ["workspace"]) ++ regs⟩
      hrt hfullcomps] at h
    rw [hrt] at h
    rw [if_pos (render_rooted_isPre (cwd.comps ++ ["workspace"]) regs (by simp))] at h
    refine ⟨regs, hregs, ?_⟩
    have hout : renderClean ⟨true, (cwd.comps ++ ["workspace"]) ++ regs⟩ = out := by
      simpa using h
    rw [← hout]
    congr 1
    simp

def exceptIsOk {ε α : Type} : Except ε α → Bool
  | .ok _ => true
  | .error _ => false

theorem resolve_maps_regular (cwd : GoPath) (hcanon : CanonAbs cwd) (rel : String)
    (regs : List String) (hclean : goCleanPath (parsePath rel) = ⟨false, regs⟩)
    (hregs : ∀ c ∈ regs, RegComp c)
    (hnd : ¬ goHasPre ".." (renderClean (goCleanPath (parsePath rel))) = true) :
    resolveWorkspacePath cwd rel
      = .ok (renderClean ⟨true, cwd.comps ++ "workspace" :: regs⟩) := by
  obtain ⟨hrt, hcomps⟩ := hcanon
  simp only [resolveWorkspacePath]
  rw [if_neg hnd]
  have hwreg : ∀ c ∈ (["workspace"] : List String), RegComp c := by
    intro c hc
    simp at hc
    subst hc
    exact regcomp_workspace
  have hws : joinP cwd ⟨false, ["workspace"]⟩ = ⟨cwd.rooted, cwd.comps ++ ["workspace"]⟩ :=
    joinP_regular cwd _ hcomps hwreg
  have hwscomps : ∀ c ∈ cwd.comps ++ ["workspace"], RegComp c := by
    intro c hc
    rcases List.mem_append.mp hc with hc | hc
    · exact hcomps c hc
    · exact hwreg c hc
  have hcompsr : (goCleanPath (parsePath rel)).comps = regs := by rw [hclean]
  have hfull : joinP ⟨cwd.rooted, cwd.comps ++ ["workspace"]⟩
      ⟨false, (goCleanPath (parsePath rel)).comps⟩
      = ⟨cwd.rooted, (cwd.comps ++ ["workspace"]) ++ regs⟩ := by
    rw [hcompsr]
    exact joinP_regular ⟨cwd.rooted, cwd.comps ++ ["workspace"]⟩ regs hwscomps hregs
  rw [hws, hfull]
  have hfullcomps : ∀ c ∈ (cwd.comps ++ ["workspace"]) ++ regs, RegComp c := by
    intro c hc
    rcases List.mem_append.mp hc with hc | hc
    · exact hwscomps c hc
    · exact hregs c hc
  rw [absPath_rooted_regular cwd ⟨cwd.rooted, cwd.comps ++ ["workspace"]⟩ hrt hwscomps]
  rw [absPath_rooted_regular cwd ⟨cwd.rooted, (cwd.comps ++ ["workspace"]) ++ regs⟩
    hrt hfullcomps]
  rw [hrt]
  rw [if_pos (render_rooted_isPre (cwd.comps ++ ["workspace"]) regs (by simp))]
  congr 2
  simp

theorem tools_reject_unresolved (cwd : GoPath) (fs : FS)
    (path oldStr newStr content e : String)
    (hres : resolveWorkspacePath cwd path = .error e) :
    exceptIsOk (readFileTool cwd fs path) = false ∧
    (editFileTool cwd fs path oldStr newStr).1 = fs ∧
    exceptIsOk (editFileTool cwd fs path oldStr newStr).2 = false ∧
    (createFileTool cwd fs path content).1 = fs ∧
    exceptIsOk (createFileTool cwd fs path content).2 = false ∧
    (path ≠ "" → exceptIsOk (listFilesTool cwd fs path) = false) := by
  refine ⟨?_, ?_, ?_, ?_, ?_, ?_⟩
  · by_cases hp : path = ""
    · simp [readFileTool, hp, exceptIsOk]
    · simp [readFileTool, hp, hres, exceptIsOk]
  · by_cases hp : path = "" ∨ oldStr = ""
    · simp [editFileTool, hp]
    · simp [editFileTool, hp, hres]
  · by_cases hp : path = "" ∨ oldStr = ""
    · simp [editFileTool, hp, exceptIsOk]
    · simp [editFileTool, hp, hres, exceptIsOk]
  · by_cases hp : path = ""
    · simp [createFileTool, hp]
    · simp [createFileTool, hp, hres]
  · by_cases hp : path = ""
    · simp [createFileTool, hp, exceptIsOk]
    · simp [createFileTool, hp, hres, exceptIsOk]
  · intro hp
    simp [listFilesTool, hp, hres, exceptIsOk]

/-- Claim C2 (counterexample): an absolute path is not rejected —
`resolveWorkspacePath` reinterprets `/etc/passwd` as a path beneath the
sandbox root and accepts it. -/
theorem sandbox_absolute_path_counterexample :
    resolveWorkspacePath ⟨true, ["home", "user"]⟩ "/etc/passwd"
      = .ok "/home/user/workspace/etc/passwd" := rfl

/-- Claim C2 (amended): every accepted path resolves inside the
`<cwd>/workspace` subtree (no residual `..`/`.`/empty components);
`../../etc/passwd` is rejected; `a/b.go` resolves to
`<root>/a/b.go`; and each file tool refuses to operate — leaving the
file system untouched — on any path the resolution rejects.  Absolute
paths are not rejected but are joined beneath the sandbox root. -/
theorem sandbox_path_resolution_amended :
    (∀ cwd rel out, CanonAbs cwd → resolveWorkspacePath cwd rel = .ok out →
      ∃ extra, (∀ c ∈ extra, RegComp c) ∧
        out = renderClean ⟨true, cwd.comps ++ "workspace" :: extra⟩) ∧
    (∀ cwd, resolveWorkspacePath cwd "../../etc/passwd"
      = .error "invalid path: '../../etc/passwd' attempts to traverse outside the workspace") ∧
    (∀ cwd, CanonAbs cwd → resolveWorkspacePath cwd "a/b.go"
      = .ok (renderClean ⟨true, cwd.comps ++ "workspace" :: ["a", "b.go"]⟩)) ∧
    (∀ cwd fs path oldStr newStr content e, resolveWorkspacePath cwd path = .error e →
      exceptIsOk (readFileTool cwd fs path) = false ∧
      (editFileTool cwd fs path oldStr newStr).1 = fs ∧
      exceptIsOk (editFileTool cwd fs path oldStr newStr).2 = false ∧
      (createFileTool cwd fs path content).1 = fs ∧
      exceptIsOk (createFileTool cwd fs path content).2 = false ∧
      (path ≠ "" → exceptIsOk (listFilesTool cwd fs path) = false)) := by
  refine ⟨?_, ?_, ?_, ?_⟩
  · intro cwd rel out hcanon h
    exact resolve_ok_shape cwd rel hcanon out h
  · intro cwd
    rfl
  · intro cwd hcanon
    exact resolve_maps_regular cwd hcanon "a/b.go" ["a", "b.go"] (by decide)
      (by decide) (by decide)
  · intro cwd fs path oldStr newStr content e hres
    exact tools_reject_unresolved cwd fs path oldStr newStr content e hres

theorem sandbox_path_resolution_amended_witness :
    resolveWorkspacePath ⟨true, ["home", "user"]⟩ "a/b.go"
      = .ok "/home/user/workspace/a/b.go" ∧
    exceptIsOk (readFileTool ⟨true, ["home", "user"]⟩ [] "../../etc/passwd") = false := by
  constructor
  · have h := sandbox_path_resolution_amended.2.2.1 ⟨true, ["home", "user"]⟩
      ⟨rfl, by decide⟩
    simpa using h
  · exact (sandbox_path_resolution_amended.2.2.2 ⟨true, ["home", "user"]⟩ [] "../../etc/passwd"
      "x" "y" "z" "invalid path: '../../etc/passwd' attempts to traverse outside the workspace"
      rfl).1

theorem string_mk_data (s : String) : String.mk s.data = s := rfl

theorem splitSlashAux_no_slash :
    ∀ (l cur : List Char), (∀ c ∈ l, c ≠ '/') →
      splitSlashAux cur l = [String.mk (cur.reverse ++ l)] := by
  intro l
  induction l with
  | nil => intro cur _; simp [splitSlashAux]
  | cons c rest ih =>
    intro cur hl
    have hc : c ≠ '/' := hl c (by simp)
    rw [splitSlashAux, if_neg hc]
    rw [ih (c :: cur) (fun x hx => hl x (by simp [hx]))]
    simp

theorem fallback_filename_data (ts : String) :
    (fallbackFileName ts).data
      = "vector_store_fallback_".data ++ ts.data ++ ".txt".data := by
  simp [fallbackFileName]

theorem fallback_filename_regular (ts : String) (hts : ∀ c ∈ ts.data, c ≠ '/') :
    RegComp (fallbackFileName ts) ∧
    (∀ c ∈ (fallbackFileName ts).data, c ≠ '/') ∧
    goCleanPath (parsePath (fallbackFileName ts)) = ⟨false, [fallbackFileName ts]⟩ ∧
    ¬ goHasPre ".." (renderClean ⟨false, [fallbackFileName ts]⟩) = true := by
  have hdata := fallback_filename_data ts
  have hlit1 : ∀ c ∈ "vector_store_fallback_".data, c ≠ '/' := by decide
  have hlit2 : ∀ c ∈ ".txt".data, c ≠ '/' := by decide
  have hnoslash : ∀ c ∈ (fallbackFileName ts).data, c ≠ '/' := by
    rw [hdata]
    intro c hc
    rcases List.mem_append.mp hc with hc | hc
    · rcases List.mem_append.mp hc with hc | hc
      · exact hlit1 c hc
      · exact hts c hc
    · exact hlit2 c hc
  have hcons : ∃ t, (fallbackFileName ts).data = 'v' :: t := by
    rw [hdata]
    exact ⟨_, rfl⟩
  obtain ⟨t, hct⟩ := hcons
  have hreg : RegComp (fallbackFileName ts) := by
    refine ⟨?_, ?_, ?_⟩
    · intro h
      have := congrArg String.data h
      rw [hct] at this
      simp at this
    · intro h
      have := congrArg String.data h
      rw [hct] at this
      simp at this
    · intro h
      have := congrArg String.data h
      rw [hct] at this
      simp at this
  refine ⟨hreg, hnoslash, ?_, ?_⟩
  · have hsplit : splitSlash (fallbackFileName ts) = [fallbackFileName ts] := by
      unfold splitSlash
      rw [splitSlashAux_no_slash _ [] hnoslash]
      simp [string_mk_data]
    have hrooted : (parsePath (fallbackFileName ts)).rooted = false := by
      simp only [parsePath]
      rw [hct]
      simp
    unfold goCleanPath
    cases hpp : parsePath (fallbackFileName ts) with
    | mk r cmps =>
      rw [hpp] at hrooted
      simp only at hrooted
      have hcmps : cmps = [fallbackFileName ts] := by
        have : cmps = (parsePath (fallbackFileName ts)).comps := by rw [hpp]
        rw [this]
        simpa [parsePath] using hsplit
      subst hrooted hcmps
      have hcl : goCleanComps false [fallbackFileName ts] = [fallbackFileName ts] := by
        apply goCleanComps_regular
        intro c hc
        simp at hc
        subst hc
        exact hreg
      rw [hcl]
  · intro h
    have : renderClean ⟨false, [fallbackFileName ts]⟩ = fallbackFileName ts := by
      simp [renderClean, compsChars, string_mk_data]
    rw [this] at h
    unfold goHasPre at h
    rw [show ("..").data = ['.', '.'] from rfl, hct] at h
    simp [listIsPre] at h

theorem fallbackToFileStore_ok (cwd : GoPath) (hcanon : CanonAbs cwd) (fs : FS)
    (ts textContent : String) (metadata : List (String × String))
    (hts : ∀ c ∈ ts.data, c ≠ '/')
    (hnew : fsGet fs
      (renderClean ⟨true, cwd.comps ++ "workspace" :: [fallbackFileName ts]⟩) = none) :
    fallbackToFileStore cwd fs ts textContent metadata
      = (fsSet fs (renderClean ⟨true, cwd.comps ++ "workspace" :: [fallbackFileName ts]⟩)
           (textContent ++ metadataFooter metadata),
         .ok ("Successfully created file '" ++ fallbackFileName ts ++ "'")) := by
  obtain ⟨hreg, _, hclean, hnd⟩ := fallback_filename_regular ts hts
  have hres : resolveWorkspacePath cwd (fallbackFileName ts)
      = .ok (renderClean ⟨true, cwd.comps ++ "workspace" :: [fallbackFileName ts]⟩) := by
    apply resolve_maps_regular cwd hcanon _ [fallbackFileName ts] hclean
    · intro c hc
      simp at hc
      subst hc
      exact hreg
    · rw [show goCleanPath (parsePath (fallbackFileName ts))
        = ⟨false, [fallbackFileName ts]⟩ from hclean]
      exact hnd
  unfold fallbackToFileStore createFileTool
  rw [if_neg hreg.1, hres]
  simp [hnew]

/-- Claim C7: when the embedding call fails — or the embedding comes back
empty or zero-dimensional, or the vector-store upsert fails — the
`qdrant_upsert` tool falls back to writing a timestamp-named file into
the sandbox root whose content is the submitted text followed by the
metadata footer, and the tool call reports success. -/
theorem qdrant_upsert_fallback (cwd : GoPath) (hcanon : CanonAbs cwd) (fs : FS)
    (embedOutcome : Except String (List (List Int))) (upsertOutcome : Except String Unit)
    (newUuid ts textContent : String) (metadata : List (String × String))
    (htext : textContent ≠ "") (hts : ∀ c ∈ ts.data, c ≠ '/')
    (hnew : fsGet fs
      (renderClean ⟨true, cwd.comps ++ "workspace" :: [fallbackFileName ts]⟩) = none) :
    (∀ e, embedOutcome = .error e →
      qdrantUpsert cwd fs embedOutcome upsertOutcome newUuid ts textContent metadata
        = (fsSet fs (renderClean ⟨true, cwd.comps ++ "workspace" :: [fallbackFileName ts]⟩)
             (textContent ++ metadataFooter metadata),
           .ok ("Successfully created file '" ++ fallbackFileName ts ++ "'"))) ∧
    (∀ e0 rest e, embedOutcome = .ok (e0 :: rest) → e0 ≠ [] →
      upsertOutcome = .error e →
      qdrantUpsert cwd fs embedOutcome upsertOutcome newUuid ts textContent metadata
        = (fsSet fs (renderClean ⟨true, cwd.comps ++ "workspace" :: [fallbackFileName ts]⟩)
             (textContent ++ metadataFooter metadata),
           .ok ("Successfully created file '" ++ fallbackFileName ts ++ "'"))) := by
  constructor
  · intro e he
    unfold qdrantUpsert
    rw [if_neg htext, he]
    exact fallbackToFileStore_ok cwd hcanon fs ts textContent metadata hts hnew
  · intro e0 rest e he h0 hu
    unfold qdrantUpsert
    rw [if_neg htext, he]
    simp only [List.isEmpty_iff]
    rw [if_neg h0, hu]
    exact fallbackToFileStore_ok cwd hcanon fs ts textContent metadata hts hnew

theorem qdrant_upsert_fallback_witness :
    qdrantUpsert ⟨true, ["home", "user"]⟩ [] (.error "embedding API unreachable")
        (.ok ()) "uuid-1" "20241201_120000" "remember this" [("source", "chat")]
      = ([("/home/user/workspace/vector_store_fallback_20241201_120000.txt",
           "remember this\n\n--- Metadata ---\nsource: chat\n")],
         .ok ("Successfully created file 'vector_store_fallback_20241201_120000.txt'")) := by
  have h := (qdrant_upsert_fallback ⟨true, ["home", "user"]⟩ ⟨rfl, by decide⟩ []
    (.error "embedding API unreachable") (.ok ()) "uuid-1" "20241201_120000"
    "remember this" [("source", "chat")] (by decide) (by decide) rfl).1
    "embedding API unreachable" rfl
  rw [h]
  rfl

theorem goInsertAux_perm {α : Type} (less : α → α → Bool) (x : α) (racc : List α) :
    (goInsertAux less x racc).Perm (x :: racc) := by
  induction racc with
  | nil => simp [goInsertAux]
  | cons y r ih =>
    by_cases h : less x y = true
    · rw [goInsertAux, if_pos h]
      exact (ih.cons y).trans (List.Perm.swap x y r)
    · rw [goInsertAux, if_neg h]

theorem foldl_goInsertAux_perm {α : Type} (less : α → α → Bool) :
    ∀ (l racc : List α),
      (l.foldl (fun racc x => goInsertAux less x racc) racc).Perm (racc ++ l) := by
  intro l
  induction l with
  | nil => intro racc; simp
  | cons x xs ih =>
    intro racc
    rw [List.foldl_cons]
    refine (ih (goInsertAux less x racc)).trans ?_
    refine (List.Perm.append_right xs (goInsertAux_perm less x racc)).trans ?_
    rw [List.cons_append]
    exact List.perm_middle.symm

theorem goInsertionSortList_perm {α : Type} (less : α → α → Bool) (l : List α) :
    (goInsertionSortList less l).Perm l := by
  unfold goInsertionSortList
  refine (List.reverse_perm _).trans ?_
  simpa using foldl_goInsertAux_perm less l []

theorem goInsertAux_sorted {α : Type} (key : α → Nat) (less : α → α → Bool)
    (hless : ∀ x y, less x y = decide (key y < key x)) (x : α) :
    ∀ racc : List α, racc.Pairwise (fun a b => key a ≤ key b) →
      (goInsertAux less x racc).Pairwise (fun a b => key a ≤ key b) := by
  intro racc
  induction racc with
  | nil => intro _; simp [goInsertAux]
  | cons y r ih =>
    intro h
    obtain ⟨hy, hr⟩ := List.pairwise_cons.mp h
    by_cases hxy : less x y = true
    · rw [goInsertAux, if_pos hxy]
      rw [hless] at hxy
      have hyx : key y < key x := of_decide_eq_true hxy
      refine List.pairwise_cons.mpr ⟨?_, ih hr⟩
      intro z hz
      rcases List.mem_cons.mp ((List.Perm.mem_iff (goInsertAux_perm less x r)).mp hz)
        with hz | hz
      · subst hz
        omega
      · exact hy z hz
    · rw [goInsertAux, if_neg hxy]
      rw [hless] at hxy
      have hyx : ¬ key y < key x := by simpa using hxy
      refine List.pairwise_cons.mpr ⟨?_, h⟩
      intro z hz
      rcases List.mem_cons.mp hz with hz | hz
      · subst hz
        omega
      · have := hy z hz
        omega

theorem goInsertionSortList_sorted {α : Type} (key : α → Nat) (less : α → α → Bool)
    (hless : ∀ x y, less x y = decide (key y < key x)) (l : List α) :
    (goInsertionSortList less l).Pairwise (fun a b => key b ≤ key a) := by
  have hfold : ∀ (l racc : List α), racc.Pairwise (fun a b => key a ≤ key b) →
      (l.foldl (fun racc x => goInsertAux less x racc) racc).Pairwise
        (fun a b => key a ≤ key b) := by
    intro l
    induction l with
    | nil => intro racc h; simpa using h
    | cons x xs ih =>
      intro racc h
      rw [List.foldl_cons]
      exact ih _ (goInsertAux_sorted key less hless x racc h)
  unfold goInsertionSortList
  rw [List.pairwise_reverse]
  exact hfold l [] (by simp)

theorem goInsertAux_filter {α : Type} (key : α → Nat) (less : α → α → Bool)
    (hless : ∀ x y, less x y = decide (key y < key x)) (x : α) (v : Nat) :
    ∀ racc : List α,
      (goInsertAux less x racc).filter (fun y => key y == v)
        = if key x == v then x :: racc.filter (fun y => key y == v)
          else racc.filter (fun y => key y == v) := by
  intro racc
  induction racc with
  | nil =>
    by_cases hx : key x == v
    · simp [goInsertAux, hx]
    · simp [goInsertAux, hx]
  | cons y r ih =>
    by_cases hxy : less x y = true
    · rw [goInsertAux, if_pos hxy]
      have hyx : key y < key x := of_decide_eq_true (by rw [← hless]; exact hxy)
      by_cases hx : (key x == v) = true
      · have hxv : key x = v := by simpa using hx
        have hyv : (key y == v) = false := by
          simp only [beq_eq_false_iff_ne, ne_eq]
          omega
        rw [if_pos hx]
        rw [List.filter_cons_of_neg (by simp [hyv])]
        rw [ih, if_pos hx]
        rw [List.filter_cons_of_neg (by simp [hyv])]
      · rw [if_neg (by simpa using hx)]
        by_cases hyv : (key y == v) = true
        · rw [List.filter_cons_of_pos (by simp [hyv]), ih, if_neg (by simpa using hx)]
          rw [List.filter_cons_of_pos (by simp [hyv])]
        · rw [List.filter_cons_of_neg (by simp at hyv ⊢; exact hyv), ih,
            if_neg (by simpa using hx)]
          rw [List.filter_cons_of_neg (by simp at hyv ⊢; exact hyv)]
    · rw [goInsertAux, if_neg hxy]
      by_cases hx : (key x == v) = true
      · rw [if_pos hx, List.filter_cons_of_pos (by simp at hx ⊢; exact hx)]
      · rw [if_neg (by simpa using hx), List.filter_cons_of_neg (by simpa using hx)]

theorem goInsertionSortList_filter {α : Type} (key : α → Nat) (less : α → α → Bool)
    (hless : ∀ x y, less x y = decide (key y < key x)) (l : List α) (v : Nat) :
    (goInsertionSortList less l).filter (fun y => key y == v)
      = l.filter (fun y => key y == v) := by
  have hfold : ∀ (l racc : List α),
      (l.foldl (fun racc x => goInsertAux less x racc) racc).filter (fun y => key y == v)
        = (l.filter (fun y => key y == v)).reverse ++ racc.filter (fun y => key y == v) := by
    intro l
    induction l with
    | nil => intro racc; simp
    | cons x xs ih =>
      intro racc
      rw [List.foldl_cons, ih, goInsertAux_filter key less hless]
      by_cases hx : (key x == v) = true
      · rw [if_pos hx, List.filter_cons_of_pos (by simp at hx ⊢; exact hx)]
        simp
      · rw [if_neg (by simpa using hx), List.filter_cons_of_neg (by simpa using hx)]
  unfold goInsertionSortList
  rw [List.filter_reverse, hfold l []]
  simp

theorem goSortSlice_small {α : Type} [Inhabited α] (less : α → α → Bool) (l : List α)
    (h : l.length ≤ 12) : goSortSlice less l = goInsertionSortList less l := by
  unfold goSortSlice
  obtain ⟨k, hk⟩ : ∃ k, pdqFuel l.length = k + 1 :=
    ⟨2 * l.length + 2 * goBitsLen l.length + 15, by unfold pdqFuel; omega⟩
  rw [hk, pdqLoop]
  rw [if_pos (show l.length - 0 ≤ 12 by omega)]
  unfold insRangeGo
  simp

def specLineScore (terms : List String) (line : String) : Nat :=
  (terms.map (fun t => goCount (lowerStr line) t)).sum

def specFileScore (terms : List String) (content : String) : Nat :=
  ((splitChar '\n' content).map (specLineScore terms)).sum

theorem lineScoreCode_eq_spec (terms : List String) (line : String) :
    lineScoreCode terms line = specLineScore terms line := by
  unfold lineScoreCode specLineScore
  have hfold : ∀ (ts : List String) (acc : Nat),
      ts.foldl (fun acc t =>
        let c := goCount (lowerStr line) t
        if c > 0 then acc + c else acc) acc
      = acc + (ts.map (fun t => goCount (lowerStr line) t)).sum := by
    intro ts
    induction ts with
    | nil => intro acc; simp
    | cons t ts ih =>
      intro acc
      rw [List.foldl_cons]
      have hstep : (let c := goCount (lowerStr line) t
          if c > 0 then acc + c else acc) = acc + goCount (lowerStr line) t := by
        by_cases h : goCount (lowerStr line) t > 0
        · simp [h]
        · simp [h]
          omega
      rw [hstep, ih]
      simp
      omega
  simpa using hfold terms 0

theorem scanStep_pos (terms : List String) (acc : Nat × String × Nat) (line : String)
    (h : lineScoreCode terms line > acc.2.2) :
    scanStep terms acc line = (acc.1 + lineScoreCode terms line, line,
      lineScoreCode terms line) := by
  simp [scanStep, h]

theorem scanStep_neg (terms : List String) (acc : Nat × String × Nat) (line : String)
    (h : ¬ lineScoreCode terms line > acc.2.2) :
    scanStep terms acc line = (acc.1 + lineScoreCode terms line, acc.2.1, acc.2.2) := by
  simp [scanStep, h]

theorem fileScan_fold_char (terms : List String) (lines : List String) :
    (lines.foldl (scanStep terms) (0, "", 0)).1 = (lines.map (specLineScore terms)).sum ∧
    (((lines.foldl (scanStep terms) (0, "", 0)).2.2 = 0 ∧
      (lines.foldl (scanStep terms) (0, "", 0)).2.1 = "" ∧
      (∀ l ∈ lines, specLineScore terms l = 0)) ∨
     (∃ pre post, lines = pre ++ (lines.foldl (scanStep terms) (0, "", 0)).2.1 :: post ∧
       (lines.foldl (scanStep terms) (0, "", 0)).2.2
         = specLineScore terms (lines.foldl (scanStep terms) (0, "", 0)).2.1 ∧
       0 < (lines.foldl (scanStep terms) (0, "", 0)).2.2 ∧
       (∀ l ∈ pre, specLineScore terms l < (lines.foldl (scanStep terms) (0, "", 0)).2.2) ∧
       (∀ l ∈ post, specLineScore terms l ≤ (lines.foldl (scanStep terms) (0, "", 0)).2.2))) := by
  induction lines using List.reverseRecOn with
  | nil => simp
  | append_singleton init last ih =>
    obtain ⟨ihs, ihb⟩ := ih
    rw [List.foldl_append, List.foldl_cons, List.foldl_nil]
    by_cases hgt : lineScoreCode terms last > (init.foldl (scanStep terms) (0, "", 0)).2.2
    · rw [scanStep_pos terms _ last hgt]
      constructor
      · simp [ihs, lineScoreCode_eq_spec]
      · right
        rw [lineScoreCode_eq_spec] at hgt
        refine ⟨init, [], by simp, by simp [lineScoreCode_eq_spec], ?_, ?_, by simp⟩
        · simp only
          rw [lineScoreCode_eq_spec]
          omega
        · intro l hl
          simp only
          rw [lineScoreCode_eq_spec]
          rcases ihb with ⟨hz, _, hall⟩ | ⟨pre, post, hsplit, hbs, hpos, hpre, hpost⟩
          · have := hall l hl
            omega
          · rw [hsplit] at hl
            rcases List.mem_append.mp hl with hl | hl
            · have := hpre l hl
              omega
            · rcases List.mem_cons.mp hl with hl | hl
              · subst hl
                omega
              · have := hpost l hl
                omega
    · rw [scanStep_neg terms _ last hgt]
      constructor
      · simp [ihs, lineScoreCode_eq_spec]
      · rcases ihb with ⟨hz, hbe, hall⟩ | ⟨pre, post, hsplit, hbs, hpos, hpre, hpost⟩
        · left
          have hlast : lineScoreCode terms last = 0 := by omega
          refine ⟨by simpa using hz, by simpa using hbe, ?_⟩
          intro l hl
          rcases List.mem_append.mp hl with hl | hl
          · exact hall l hl
          · rcases List.mem_cons.mp hl with hl | hl
            · subst hl
              rw [← lineScoreCode_eq_spec]
              exact hlast
            · simp at hl
        · right
          refine ⟨pre, post ++ [last], ?_, by simpa using hbs, by simpa using hpos,
            ?_, ?_⟩
          · simp only
            conv_lhs => rw [hsplit]
            simp
          · intro l hl
            simpa using hpre l hl
          · intro l hl
            simp only
            rcases List.mem_append.mp hl with hl | hl
            · exact hpost l hl
            · rcases List.mem_cons.mp hl with hl | hl
              · subst hl
                rw [← lineScoreCode_eq_spec]
                omega
              · simp at hl

theorem scoredResults_eq_filterMap (files : List (String × String)) (terms : List String) :
    scoredResults files terms = files.filterMap (fun f =>
      if 0 < (fileScanCode terms f.2).1 then
        some ⟨f.1, f.2, (fileScanCode terms f.2).1, (fileScanCode terms f.2).2⟩
      else none) := by
  have hfold : ∀ (fs : List (String × String)) (acc : List SRes),
      fs.foldl (fun acc f =>
        let r := fileScanCode terms f.2
        if r.1 > 0 then acc ++ [⟨f.1, f.2, r.1, r.2⟩] else acc) acc
      = acc ++ fs.filterMap (fun f =>
          if 0 < (fileScanCode terms f.2).1 then
            some ⟨f.1, f.2, (fileScanCode terms f.2).1, (fileScanCode terms f.2).2⟩
          else none) := by
    intro fs
    induction fs with
    | nil => intro acc; simp
    | cons f fs ih =>
      intro acc
      rw [List.foldl_cons]
      by_cases h : 0 < (fileScanCode terms f.2).1
      · simp only [h, if_pos, List.filterMap_cons]
        rw [ih]
        simp [h]
      · simp only [h, List.filterMap_cons]
        rw [ih]
        simp [h]
  unfold scoredResults
  simpa using hfold files []

def relevanceKey (r : SRes) : Nat := r.relevance

theorem relLess_is_key (x y : SRes) : relLess x y = decide (relevanceKey y < relevanceKey x) :=
  rfl

/-- Claim C8 (amended): each fallback file is scored as the sum over its
lines of the occurrence counts of the lowercased whitespace-split query
terms; only files with positive score are kept (in scan order), each
annotated with its earliest highest-scoring line; and whenever at most 12
files score positively — Go `sort.Slice` falls into its stable
insertion-sort path below 13 elements — the result is the first five of
the scored files sorted by strictly descending relevance with ties kept
in scan order (sortedness, permutation, and per-score-class order
preservation below). -/
theorem fallback_search_amended :
    (∀ terms content, (fileScanCode terms content).1 = specFileScore terms content) ∧
    (∀ terms content, 0 < (fileScanCode terms content).1 →
      ∃ pre post, splitChar '\n' content = pre ++ (fileScanCode terms content).2 :: post ∧
        0 < specLineScore terms (fileScanCode terms content).2 ∧
        (∀ l ∈ pre,
          specLineScore terms l < specLineScore terms (fileScanCode terms content).2) ∧
        (∀ l ∈ post,
          specLineScore terms l ≤ specLineScore terms (fileScanCode terms content).2)) ∧
    (∀ files terms, scoredResults files terms = files.filterMap (fun f =>
        if 0 < (fileScanCode terms f.2).1 then
          some ⟨f.1, f.2, (fileScanCode terms f.2).1, (fileScanCode terms f.2).2⟩
        else none)) ∧
    (∀ files query, files ≠ [] →
      scoredResults files (goFields (lowerStr query)) ≠ [] →
      (scoredResults files (goFields (lowerStr query))).length ≤ 12 →
      fallbackSearch files query
        = .results ((goInsertionSortList relLess
            (scoredResults files (goFields (lowerStr query)))).take 5) ∧
      (goInsertionSortList relLess (scoredResults files (goFields (lowerStr query)))).Perm
        (scoredResults files (goFields (lowerStr query))) ∧
      (goInsertionSortList relLess
        (scoredResults files (goFields (lowerStr query)))).Pairwise
          (fun a b => relevanceKey b ≤ relevanceKey a) ∧
      (∀ v, (goInsertionSortList relLess
          (scoredResults files (goFields (lowerStr query)))).filter
            (fun r => relevanceKey r == v)
        = (scoredResults files (goFields (lowerStr query))).filter
            (fun r => relevanceKey r == v))) := by
  refine ⟨?_, ?_, scoredResults_eq_filterMap, ?_⟩
  · intro terms content
    unfold fileScanCode specFileScore
    exact (fileScan_fold_char terms (splitChar '\n' content)).1
  · intro terms content hpos
    have hfc1 : (fileScanCode terms content).1
        = ((splitChar '\n' content).foldl (scanStep terms) (0, "", 0)).1 := rfl
    have hfc2 : (fileScanCode terms content).2
        = ((splitChar '\n' content).foldl (scanStep terms) (0, "", 0)).2.1 := rfl
    obtain ⟨hsum, hbest⟩ := fileScan_fold_char terms (splitChar '\n' content)
    rcases hbest with ⟨hz, hbe, hall⟩ | ⟨pre, post, hsplit, hbs, hp, hpre, hpost⟩
    · exfalso
      have hzero : ((splitChar '\n' content).map (specLineScore terms)).sum = 0 := by
        apply List.sum_eq_zero
        intro x hx
        obtain ⟨l, hl, hxl⟩ := List.mem_map.mp hx
        rw [← hxl]
        exact hall l hl
      rw [hfc1, hsum, hzero] at hpos
      exact absurd hpos (by omega)
    · refine ⟨pre, post, ?_, ?_, ?_, ?_⟩
      · rw [hfc2]
        exact hsplit
      · rw [hfc2, ← hbs]
        exact hp
      · intro l hl
        rw [hfc2, ← hbs]
        exact hpre l hl
      · intro l hl
        rw [hfc2, ← hbs]
        exact hpost l hl
  · intro files query hne hrs h12
    have hsort : goSortSlice relLess (scoredResults files (goFields (lowerStr query)))
        = goInsertionSortList relLess (scoredResults files (goFields (lowerStr query))) :=
      goSortSlice_small relLess _ h12
    have hperm := goInsertionSortList_perm relLess
      (scoredResults files (goFields (lowerStr query)))
    have hlen : (goInsertionSortList relLess
        (scoredResults files (goFields (lowerStr query)))).length
        = (scoredResults files (goFields (lowerStr query))).length := hperm.length_eq
    refine ⟨?_, hperm, goInsertionSortList_sorted relevanceKey relLess relLess_is_key _,
      fun v => goInsertionSortList_filter relevanceKey relLess relLess_is_key _ v⟩
    unfold fallbackSearch
    rw [if_neg (by simpa [List.isEmpty_iff] using hne)]
    simp only [hsort]
    have htop : (if (goInsertionSortList relLess
          (scoredResults files (goFields (lowerStr query)))).length > 5 then
        (goInsertionSortList relLess
          (scoredResults files (goFields (lowerStr query)))).take 5
      else goInsertionSortList relLess (scoredResults files (goFields (lowerStr query))))
        = (goInsertionSortList relLess
            (scoredResults files (goFields (lowerStr query)))).take 5 := by
      by_cases h5 : (goInsertionSortList relLess
          (scoredResults files (goFields (lowerStr query)))).length > 5
      · rw [if_pos h5]
      · rw [if_neg h5]
        exact (List.take_of_length_le (by omega)).symm
    rw [htop]
    have hnonempty : ¬ ((goInsertionSortList relLess
        (scoredResults files (goFields (lowerStr query)))).take 5).isEmpty = true := by
      simp only [List.isEmpty_iff, List.take_eq_nil_iff]
      push_neg
      refine ⟨by omega, ?_⟩
      intro hnil
      apply hrs
      have hl0 := hlen
      rw [hnil] at hl0
      simp only [List.length_nil] at hl0
      exact List.length_eq_zero.mp hl0.symm
    rw [if_neg hnonempty]

def outcomeFilenames : SearchOutcome → List String
  | .results rs => rs.map SRes.filename
  | _ => []

/-- Fourteen persisted fallback files: f00–f12 each contain the single
line "a" (score 1 for query "a"), f13 contains "a a" (score 2). -/
def cexFiles : List (String × String) :=
  [("f00", "a"), ("f01", "a"), ("f02", "a"), ("f03", "a"), ("f04", "a"),
   ("f05", "a"), ("f06", "a"), ("f07", "a"), ("f08", "a"), ("f09", "a"),
   ("f10", "a"), ("f11", "a"), ("f12", "a"), ("f13", "a a")]

/-- Claim C8 (counterexample): with 14 positively-scored fallback files,
13 of them tied at score 1, `sort.Slice` leaves its stable insertion-sort
path (which only handles up to 12 elements) and pdqsort's partitioning
reorders equal-score files: the search returns f06 ahead of f00–f05, so
ties are NOT broken by original scan order as the claim states. -/
theorem fallback_search_tiebreak_counterexample :
    outcomeFilenames (fallbackSearch cexFiles "a")
      = ["f13", "f06", "f02", "f03", "f04"] ∧
    outcomeFilenames (fallbackSearch cexFiles "a")
      ≠ ["f13", "f00", "f01", "f02", "f03"] := by
  refine ⟨by decide, by decide⟩

theorem fallback_search_amended_witness :
    0 < (fileScanCode ["a"] "b\na a").1 ∧
    (∃ pre post, splitChar '\n' "b\na a"
        = pre ++ (fileScanCode ["a"] "b\na a").2 :: post ∧
      0 < specLineScore ["a"] (fileScanCode ["a"] "b\na a").2 ∧
      (∀ l ∈ pre, specLineScore ["a"] l
        < specLineScore ["a"] (fileScanCode ["a"] "b\na a").2) ∧
      (∀ l ∈ post, specLineScore ["a"] l
        ≤ specLineScore ["a"] (fileScanCode ["a"] "b\na a").2)) ∧
    fallbackSearch [("g0", "b"), ("g1", "a a")] "a"
      = .results [⟨"g1", "a a", 2, "a a"⟩] := by
  refine ⟨by decide, fallback_search_amended.2.1 ["a"] "b\na a" (by decide), ?_⟩
  have h := (fallback_search_amended.2.2.2 [("g0", "b"), ("g1", "a a")] "a"
    (by decide) (by decide) (by decide)).1
  rw [h]
  decide
